import Mathlib

/-!
Verification of the intrusive doubly linked list from
`src/include/common_util/Intrusive_list.hpp` (class `Intrusive_list` /
`Intrusive_list_node`).

Shallow embedding: node memory is a heap `Nat → Node` where an address
holds the two link pointers `m_prev` / `m_next` (`Option Nat`, `none`
modelling a C++ null pointer).  A list is identified by the address `s`
of its sentinel node.  Every C++ statement of the source becomes one
heap update, reading the current heap exactly where the source reads it;
a dereference of a possibly-null pointer is modelled by `Option` binding,
so an operation returns `none` exactly when the C++ code would
dereference a null pointer.  Loops (`size`, `erase`) take explicit fuel.
-/

/-- A node of the intrusive list: the two raw link pointers
(`Intrusive_list_node::m_prev` / `m_next`).  `none` is a null pointer. -/
@[ext] structure Node where
  m_prev : Option Nat
  m_next : Option Nat
deriving DecidableEq, Repr

/-- Node memory: each address holds a `Node`. -/
abbrev Heap := Nat → Node

/-- Write the `m_prev` field of the node at address `a` (`x->m_prev = p`). -/
def setPrev (H : Heap) (a : Nat) (p : Option Nat) : Heap :=
  fun i => if i = a then { H i with m_prev := p } else H i

/-- Write the `m_next` field of the node at address `a` (`x->m_next = p`). -/
def setNext (H : Heap) (a : Nat) (p : Option Nat) : Heap :=
  fun i => if i = a then { H i with m_next := p } else H i

@[simp] theorem setPrev_m_next (H : Heap) (a : Nat) (p : Option Nat) (b : Nat) :
    ((setPrev H a p) b).m_next = (H b).m_next := by
  unfold setPrev; by_cases h : b = a <;> simp [h]

@[simp] theorem setNext_m_prev (H : Heap) (a : Nat) (p : Option Nat) (b : Nat) :
    ((setNext H a p) b).m_prev = (H b).m_prev := by
  unfold setNext; by_cases h : b = a <;> simp [h]

@[simp] theorem setPrev_m_prev_same (H : Heap) (a : Nat) (p : Option Nat) :
    ((setPrev H a p) a).m_prev = p := by
  unfold setPrev; simp

@[simp] theorem setNext_m_next_same (H : Heap) (a : Nat) (p : Option Nat) :
    ((setNext H a p) a).m_next = p := by
  unfold setNext; simp

@[simp] theorem setPrev_m_prev_ne (H : Heap) (a : Nat) (p : Option Nat) (b : Nat)
    (h : b ≠ a) : ((setPrev H a p) b).m_prev = (H b).m_prev := by
  unfold setPrev; simp [h]

@[simp] theorem setNext_m_next_ne (H : Heap) (a : Nat) (p : Option Nat) (b : Nat)
    (h : b ≠ a) : ((setNext H a p) b).m_next = (H b).m_next := by
  unfold setNext; simp [h]

theorem setPrev_app_ne (H : Heap) (a : Nat) (p : Option Nat) (b : Nat)
    (h : b ≠ a) : (setPrev H a p) b = H b := by
  unfold setPrev; simp [h]

theorem setNext_app_ne (H : Heap) (a : Nat) (p : Option Nat) (b : Nat)
    (h : b ≠ a) : (setNext H a p) b = H b := by
  unfold setNext; simp [h]

/-! ### The operations of `Intrusive_list`, translated statement by statement -/

/-- `Intrusive_list::Intrusive_list()`: the sentinel links to itself. -/
def initHeap (s : Nat) (H : Heap) : Heap :=
  setNext (setPrev H s (some s)) s (some s)

/-- `Intrusive_list::empty()`: `m_sentinel.m_next == &m_sentinel`. -/
def empty (s : Nat) (H : Heap) : Bool :=
  (H s).m_next == some s

/-- Loop body of `Intrusive_list::size()`: walk `m_next` from `n`,
counting, until the sentinel is reached.  `none` when the fuel runs out
or a null pointer would be dereferenced (`n = n->m_next` on null `n`). -/
def sizeAux (H : Heap) (s : Nat) : Nat → Option Nat → Nat → Option Nat
  | 0, _, _ => none
  | _ + 1, none, _ => none
  | fuel + 1, some c, count =>
      if c = s then some count else sizeAux H s fuel (H c).m_next (count + 1)

/-- `Intrusive_list::size()`. -/
def size (s : Nat) (H : Heap) (fuel : Nat) : Option Nat :=
  sizeAux H s fuel (H s).m_next 0

/-- `Intrusive_list::push_front(node)`, one heap update per statement. -/
def push_front (s x : Nat) (H : Heap) : Option Nat → Option Heap
  | none => none
  | some f =>
      -- m_sentinel.m_next->m_prev = node;
      let H1 := setPrev H f (some x)
      -- node->m_next = m_sentinel.m_next;
      let H2 := setNext H1 x ((H1 s).m_next)
      -- node->m_prev = &m_sentinel;
      let H3 := setPrev H2 x (some s)
      -- m_sentinel.m_next = node;
      some (setNext H3 s (some x))

/-- Entry point of `push_front`: dereferences `m_sentinel.m_next`. -/
def pushFront (s x : Nat) (H : Heap) : Option Heap :=
  push_front s x H (H s).m_next

/-- `Intrusive_list::push_back(node)`. -/
def push_back (s x : Nat) (H : Heap) : Option Nat → Option Heap
  | none => none
  | some p =>
      -- m_sentinel.m_prev->m_next = node;
      let H1 := setNext H p (some x)
      -- node->m_prev = m_sentinel.m_prev;
      let H2 := setPrev H1 x ((H1 s).m_prev)
      -- node->m_next = &m_sentinel;
      let H3 := setNext H2 x (some s)
      -- m_sentinel.m_prev = node;
      some (setPrev H3 s (some x))

/-- Entry point of `push_back`: dereferences `m_sentinel.m_prev`. -/
def pushBack (s x : Nat) (H : Heap) : Option Heap :=
  push_back s x H (H s).m_prev

/-- `Intrusive_list::pop_front()`:
`m_sentinel.m_next = m_sentinel.m_next->m_next;`
`m_sentinel.m_next->m_prev = &m_sentinel;`. -/
def pop_front (s : Nat) (H : Heap) : Option Heap :=
  match (H s).m_next with
  | none => none
  | some f =>
      let H1 := setNext H s ((H f).m_next)
      match (H1 s).m_next with
      | none => none
      | some g => some (setPrev H1 g (some s))

/-- `Intrusive_list::pop_back()`. -/
def pop_back (s : Nat) (H : Heap) : Option Heap :=
  match (H s).m_prev with
  | none => none
  | some b =>
      let H1 := setPrev H s ((H b).m_prev)
      match (H1 s).m_prev with
      | none => none
      | some q => some (setNext H1 q (some s))

/-- `Intrusive_list::is_node_adj(a, b)`. -/
def is_node_adj (H : Heap) (a b : Nat) : Bool :=
  ((H a).m_next == some b) || ((H a).m_prev == some b) ||
  ((H b).m_next == some a) || ((H b).m_prev == some a)

/-- `Intrusive_list::is_a_left_b(a, b)`: `a->m_next == b`. -/
def is_a_left_b (H : Heap) (a b : Nat) : Bool :=
  (H a).m_next == some b

/-- `Intrusive_list::is_a_right_b(a, b)`: `a->m_prev == b`. -/
def is_a_right_b (H : Heap) (a b : Nat) : Bool :=
  (H a).m_prev == some b

/-- `Intrusive_list::unlink(node)` (the heap effect; the C++ return value
`n_prev` is not used by any caller in the source). -/
def unlink (s x : Nat) (H : Heap) : Option Heap :=
  match (H x).m_prev, (H x).m_next with
  | some p, some q =>
      -- n_prev->m_next = n_next;
      let H1 := setNext H p (some q)
      -- n_next->m_prev = n_prev;
      let H2 := setPrev H1 q (some p)
      -- node->m_next = &m_sentinel;
      let H3 := setNext H2 x (some s)
      -- node->m_prev = &m_sentinel;
      some (setPrev H3 x (some s))
  | _, _ => none

/-- Loop of `Intrusive_list::erase(node)`: scan from `curr` until the
sentinel; on pointer identity with `x`, `unlink` and return `true`. -/
def eraseAux (s x : Nat) (H : Heap) : Nat → Option Nat → Option (Bool × Heap)
  | 0, _ => none
  | _ + 1, none => none
  | fuel + 1, some c =>
      if c = s then some (false, H)
      else if c = x then (unlink s x H).map (fun h => (true, h))
      else eraseAux s x H fuel (H c).m_next

/-- `Intrusive_list::erase(node)`. -/
def erase (s x : Nat) (H : Heap) (fuel : Nat) : Option (Bool × Heap) :=
  if empty s H then some (false, H)
  else eraseAux s x H fuel (H s).m_next

/-- `Intrusive_list::swap_adjacent(lhs, rhs)`. -/
def swap_adjacent (lhs rhs : Nat) (H : Heap) : Option Heap :=
  match (H lhs).m_prev, (H rhs).m_next with
  | some lhs_prev, some rhs_next =>
      let H1 := setPrev H lhs (some rhs)
      let H2 := setNext H1 lhs (some rhs_next)
      let H3 := setPrev H2 rhs (some lhs_prev)
      let H4 := setNext H3 rhs (some lhs)
      let H5 := setNext H4 lhs_prev (some rhs)
      some (setPrev H5 rhs_next (some lhs))
  | _, _ => none

/-- The non-adjacent branch of `Intrusive_list::swap(a, b)`. -/
def swap_far (a b : Nat) (H : Heap) : Option Heap :=
  match (H a).m_prev, (H a).m_next, (H b).m_prev, (H b).m_next with
  | some a_prev, some a_next, some b_prev, some b_next =>
      let H1 := setNext H a_prev (some b)
      let H2 := setPrev H1 a_next (some b)
      let H3 := setNext H2 b_prev (some a)
      let H4 := setPrev H3 b_next (some a)
      let H5 := setPrev H4 b (some a_prev)
      let H6 := setNext H5 b (some a_next)
      let H7 := setPrev H6 a (some b_prev)
      some (setNext H7 a (some b_next))
  | _, _, _, _ => none

/-- `Intrusive_list::swap(a, b)`. -/
def swap (a b : Nat) (H : Heap) : Option Heap :=
  if a = b then some H
  else if is_a_left_b H a b then swap_adjacent a b H
  else if is_a_right_b H a b then swap_adjacent b a H
  else swap_far a b H

/-- `Intrusive_list::Intrusive_list(Intrusive_list&& rhs)`: the move
constructor, sentinel of the new list at `s2`, of the source at `s`. -/
def moveConstruct (s2 s : Nat) (H : Heap) : Heap :=
  -- m_sentinel.m_prev = rhs.m_sentinel.m_prev;
  let H1 := setPrev H s2 ((H s).m_prev)
  -- m_sentinel.m_next = rhs.m_sentinel.m_next;
  let H2 := setNext H1 s2 ((H1 s).m_next)
  -- rhs.m_sentinel.m_prev = &rhs.m_sentinel;
  let H3 := setPrev H2 s (some s)
  -- rhs.m_sentinel.m_next = &rhs.m_sentinel;
  setNext H3 s (some s)

/-- Iteration with the list's bidirectional iterator: collect the node
addresses visited from `begin()` (`m_sentinel.m_next`) to `end()` (the
sentinel), following `operator++` (`m_ptr = m_ptr->next()`). -/
def collectAux (H : Heap) (s : Nat) : Nat → Option Nat → Option (List Nat)
  | 0, _ => none
  | _ + 1, none => none
  | fuel + 1, some c =>
      if c = s then some []
      else (collectAux H s fuel (H c).m_next).map (fun t => c :: t)

/-- Iteration order of the whole list, `begin()` to `end()`. -/
def collect (H : Heap) (s : Nat) (fuel : Nat) : Option (List Nat) :=
  collectAux H s fuel (H s).m_next

/-- Iterate `operator++` (follow `m_next`) `k` times from a node pointer. -/
def nextIter (H : Heap) : Nat → Option Nat → Option Nat
  | 0, p => p
  | k + 1, none => nextIter H k none
  | k + 1, some c => nextIter H k (H c).m_next

/-! ### The ring abstraction -/

/-- First element of `l`, or `d` if `l` is empty. -/
def firstD (l : List Nat) (d : Nat) : Nat :=
  match l with
  | [] => d
  | x :: _ => x

/-- Last element of `l`, or `d` if `l` is empty. -/
def lastD (l : List Nat) (d : Nat) : Nat :=
  match l with
  | [] => d
  | x :: xs => lastD xs x

/-- `seg H a l z` holds when the heap links the chain `a :: l ++ [z]`:
each consecutive pair `(u, v)` satisfies `u.m_next = v` and
`v.m_prev = u`. -/
def seg (H : Heap) : Nat → List Nat → Nat → Bool
  | a, [], z => ((H a).m_next == some z) && ((H z).m_prev == some a)
  | a, b :: l, z => ((H a).m_next == some b) && (((H b).m_prev == some a) && seg H b l z)

/-- The list with sentinel `s` is a valid circular ring whose real nodes
are exactly `l`, in order: `s :: l` closes into a doubly linked cycle and
all addresses on the ring are distinct. -/
def ValidList (H : Heap) (s : Nat) (l : List Nat) : Prop :=
  seg H s l s = true ∧ (s :: l).Nodup

theorem seg_nil_iff (H : Heap) (a z : Nat) :
    seg H a [] z = true ↔ (H a).m_next = some z ∧ (H z).m_prev = some a := by
  simp [seg]

theorem seg_cons_iff (H : Heap) (a b z : Nat) (l : List Nat) :
    seg H a (b :: l) z = true ↔
      (H a).m_next = some b ∧ (H b).m_prev = some a ∧ seg H b l z = true := by
  simp [seg]

theorem lastD_cons (x : Nat) (xs : List Nat) (d : Nat) :
    lastD (x :: xs) d = lastD xs x := rfl

theorem lastD_ne_nil (l : List Nat) (d d2 : Nat) (h : l ≠ []) :
    lastD l d = lastD l d2 := by
  cases l with
  | nil => exact absurd rfl h
  | cons x xs => rfl

theorem lastD_mem (l : List Nat) (d : Nat) (h : l ≠ []) : lastD l d ∈ l := by
  induction l generalizing d with
  | nil => exact absurd rfl h
  | cons x xs ih =>
      cases xs with
      | nil => simp [lastD]
      | cons y ys =>
          rw [lastD_cons]
          exact List.mem_cons_of_mem _ (ih x (by simp))

theorem lastD_append (A : List Nat) (b : Nat) (B : List Nat) (d : Nat) :
    lastD (A ++ b :: B) d = lastD B b := by
  induction A generalizing d with
  | nil => rfl
  | cons x xs ih => rw [List.cons_append, lastD_cons, ih]

theorem lastD_concat (A : List Nat) (b d : Nat) :
    lastD (A ++ [b]) d = b := by
  rw [lastD_append]; rfl

theorem firstD_mem (l : List Nat) (d : Nat) (h : l ≠ []) : firstD l d ∈ l := by
  cases l with
  | nil => exact absurd rfl h
  | cons x xs => simp [firstD]

theorem seg_append (H : Heap) (a z b : Nat) (l1 l2 : List Nat) :
    seg H a (l1 ++ b :: l2) z = true ↔
      seg H a l1 b = true ∧ seg H b l2 z = true := by
  induction l1 generalizing a with
  | nil => simp [seg, and_assoc]
  | cons c l1 ih =>
      rw [List.cons_append, seg_cons_iff, seg_cons_iff, ih]
      tauto

theorem seg_next_head (H : Heap) (a z : Nat) (l : List Nat)
    (h : seg H a l z = true) : (H a).m_next = some (firstD l z) := by
  cases l with
  | nil => exact ((seg_nil_iff H a z).mp h).1
  | cons b l => exact ((seg_cons_iff H a b z l).mp h).1

theorem seg_prev_head (H : Heap) (a z : Nat) (l : List Nat)
    (h : seg H a l z = true) : (H (firstD l z)).m_prev = some a := by
  cases l with
  | nil => exact ((seg_nil_iff H a z).mp h).2
  | cons b l => exact ((seg_cons_iff H a b z l).mp h).2.1

theorem seg_last_next (H : Heap) (a z : Nat) (l : List Nat)
    (h : seg H a l z = true) : (H (lastD l a)).m_next = some z := by
  induction l generalizing a with
  | nil => exact ((seg_nil_iff H a z).mp h).1
  | cons b l ih =>
      rw [lastD_cons]
      exact ih b ((seg_cons_iff H a b z l).mp h).2.2

theorem seg_last_prev (H : Heap) (a z : Nat) (l : List Nat)
    (h : seg H a l z = true) : (H z).m_prev = some (lastD l a) := by
  induction l generalizing a with
  | nil => exact ((seg_nil_iff H a z).mp h).2
  | cons b l ih =>
      rw [lastD_cons]
      exact ih b ((seg_cons_iff H a b z l).mp h).2.2

/-- The central transfer lemma: a linked segment survives a heap change
provided the interior links are untouched and the two boundary links are
re-established (possibly towards new endpoints `a2`, `z2`). -/
theorem seg_move (l : List Nat) :
    ∀ (H H2 : Heap) (a z a2 z2 : Nat),
    seg H a l z = true → l.Nodup →
    (H2 a2).m_next = some (firstD l z2) →
    (H2 (firstD l z2)).m_prev = some a2 →
    (H2 (lastD l a2)).m_next = some z2 →
    (H2 z2).m_prev = some (lastD l a2) →
    (∀ n ∈ l, n ≠ lastD l a2 → (H2 n).m_next = (H n).m_next) →
    (∀ n ∈ l, n ≠ firstD l z2 → (H2 n).m_prev = (H n).m_prev) →
    seg H2 a2 l z2 = true := by
  induction l with
  | nil =>
      intro H H2 a z a2 z2 _ _ h1 _ _ h4 _ _
      exact (seg_nil_iff H2 a2 z2).mpr ⟨h1, h4⟩
  | cons x xs ih =>
      intro H H2 a z a2 z2 hseg hnd h1 h2 h3 h4 h5 h6
      obtain ⟨hax, hxa, htail⟩ := (seg_cons_iff H a x z xs).mp hseg
      have hx_not_xs : x ∉ xs := (List.nodup_cons.mp hnd).1
      have hnd' : xs.Nodup := (List.nodup_cons.mp hnd).2
      refine (seg_cons_iff H2 a2 x z2 xs).mpr ⟨h1, h2, ?_⟩
      have hlast : lastD (x :: xs) a2 = lastD xs x := lastD_cons x xs a2
      refine ih H H2 x z x z2 htail hnd' ?_ ?_ ?_ ?_ ?_ ?_
      · -- (H2 x).m_next = some (firstD xs z2)
        cases xs with
        | nil =>
            show (H2 x).m_next = some z2
            rw [hlast] at h3
            exact h3
        | cons y ys =>
            have hxmem : x ∈ x :: y :: ys := List.mem_cons_self x _
            have hxne : x ≠ lastD (x :: y :: ys) a2 := by
              rw [hlast]
              intro hcon
              exact hx_not_xs (hcon ▸ lastD_mem (y :: ys) x (by simp))
            show (H2 x).m_next = some y
            rw [h5 x hxmem hxne]
            exact ((seg_cons_iff H x y z ys).mp htail).1
      · -- (H2 (firstD xs z2)).m_prev = some x
        cases xs with
        | nil =>
            show (H2 z2).m_prev = some x
            rw [h4, hlast]
            rfl
        | cons y ys =>
            show (H2 y).m_prev = some x
            have hymem : y ∈ x :: y :: ys := by simp
            have hyne : y ≠ firstD (x :: y :: ys) z2 := by
              show y ≠ x
              intro hcon
              exact hx_not_xs (hcon ▸ List.mem_cons_self y ys)
            rw [h6 y hymem hyne]
            exact ((seg_cons_iff H x y z ys).mp htail).2.1
      · rw [← hlast]; exact h3
      · rw [← hlast]; exact h4
      · intro n hn hne
        exact h5 n (List.mem_cons_of_mem x hn) (by rwa [hlast])
      · intro n hn hne
        refine h6 n (List.mem_cons_of_mem x hn) ?_
        show n ≠ x
        intro hcon
        exact hx_not_xs (hcon ▸ hn)

/-! ### Derived facts about a valid ring -/

theorem nextIter_succ_some (H : Heap) (k c : Nat) :
    nextIter H (k + 1) (some c) = nextIter H k (H c).m_next := rfl

theorem sizeAux_step (H : Heap) (s fuel c count : Nat) :
    sizeAux H s (fuel + 1) (some c) count =
      if c = s then some count else sizeAux H s fuel (H c).m_next (count + 1) := rfl

theorem collectAux_step (H : Heap) (s fuel c : Nat) :
    collectAux H s (fuel + 1) (some c) =
      if c = s then some []
      else (collectAux H s fuel (H c).m_next).map (fun t => c :: t) := rfl

theorem eraseAux_step (s x : Nat) (H : Heap) (fuel c : Nat) :
    eraseAux s x H (fuel + 1) (some c) =
      if c = s then some (false, H)
      else if c = x then (unlink s x H).map (fun h => (true, h))
      else eraseAux s x H fuel (H c).m_next := rfl

theorem nextIter_seg (l : List Nat) : ∀ (H : Heap) (a z : Nat),
    seg H a l z = true → nextIter H (l.length + 1) (some a) = some z := by
  induction l with
  | nil =>
      intro H a z h
      rw [List.length_nil, nextIter_succ_some, seg_next_head H a z [] h]
      rfl
  | cons b t ih =>
      intro H a z h
      obtain ⟨h1, _, h3⟩ := (seg_cons_iff H a b z t).mp h
      rw [List.length_cons, nextIter_succ_some, h1]
      exact ih H b z h3

theorem nextIter_getD (l : List Nat) : ∀ (H : Heap) (a z k : Nat),
    seg H a l z = true → k ≤ l.length →
    nextIter H k (some a) = some ((a :: l).getD k 0) := by
  induction l with
  | nil =>
      intro H a z k _ hk
      have : k = 0 := by simpa using hk
      subst this
      rfl
  | cons b t ih =>
      intro H a z k h hk
      obtain ⟨h1, _, h3⟩ := (seg_cons_iff H a b z t).mp h
      cases k with
      | zero => rfl
      | succ k =>
          rw [nextIter_succ_some, h1]
          rw [List.length_cons] at hk
          rw [ih H b z k h3 (by omega)]
          rfl

theorem sizeAux_walk (t : List Nat) : ∀ (H : Heap) (s c cnt fuel : Nat),
    seg H c t s = true → s ∉ c :: t → t.length + 2 ≤ fuel →
    sizeAux H s fuel (some c) cnt = some (cnt + (t.length + 1)) := by
  induction t with
  | nil =>
      intro H s c cnt fuel h hs hf
      have hcs : c ≠ s := by simp at hs; tauto
      obtain ⟨hn, _⟩ := (seg_nil_iff H c s).mp h
      match fuel, hf with
      | f + 2, _ =>
          rw [sizeAux_step, if_neg hcs, hn, sizeAux_step, if_pos rfl]
          simp
  | cons d t ih =>
      intro H s c cnt fuel h hs hf
      have hcs : c ≠ s := by simp at hs; tauto
      obtain ⟨hn, _, h3⟩ := (seg_cons_iff H c d s t).mp h
      match fuel, hf with
      | f + 1, hf =>
          rw [sizeAux_step, if_neg hcs, hn]
          have hs' : s ∉ d :: t := by simp at hs ⊢; tauto
          rw [ih H s d (cnt + 1) f h3 hs' (by simp at hf ⊢; omega)]
          rw [List.length_cons]
          congr 1
          omega

theorem size_valid (H : Heap) (s : Nat) (l : List Nat) (fuel : Nat)
    (hv : ValidList H s l) (hf : l.length + 1 ≤ fuel) :
    size s H fuel = some l.length := by
  obtain ⟨hseg, hnd⟩ := hv
  cases l with
  | nil =>
      obtain ⟨hn, _⟩ := (seg_nil_iff H s s).mp hseg
      unfold size
      rw [hn]
      match fuel, hf with
      | f + 1, _ => rw [sizeAux_step, if_pos rfl]; rfl
  | cons f t =>
      obtain ⟨hn, _, h3⟩ := (seg_cons_iff H s f s t).mp hseg
      unfold size
      rw [hn]
      have hs : s ∉ f :: t := (List.nodup_cons.mp hnd).1
      rw [sizeAux_walk t H s f 0 fuel h3 hs (by simp at hf ⊢; omega)]
      simp

theorem collectAux_walk (t : List Nat) : ∀ (H : Heap) (s c fuel : Nat),
    seg H c t s = true → s ∉ c :: t → t.length + 2 ≤ fuel →
    collectAux H s fuel (some c) = some (c :: t) := by
  induction t with
  | nil =>
      intro H s c fuel h hs hf
      have hcs : c ≠ s := by simp at hs; tauto
      obtain ⟨hn, _⟩ := (seg_nil_iff H c s).mp h
      match fuel, hf with
      | f + 2, _ =>
          rw [collectAux_step, if_neg hcs, hn, collectAux_step, if_pos rfl]
          rfl
  | cons d t ih =>
      intro H s c fuel h hs hf
      have hcs : c ≠ s := by simp at hs; tauto
      obtain ⟨hn, _, h3⟩ := (seg_cons_iff H c d s t).mp h
      match fuel, hf with
      | f + 1, hf =>
          rw [collectAux_step, if_neg hcs, hn]
          have hs' : s ∉ d :: t := by simp at hs ⊢; tauto
          rw [ih H s d f h3 hs' (by simp at hf ⊢; omega)]
          rfl

theorem collect_valid (H : Heap) (s : Nat) (l : List Nat) (fuel : Nat)
    (hv : ValidList H s l) (hf : l.length + 1 ≤ fuel) :
    collect H s fuel = some l := by
  obtain ⟨hseg, hnd⟩ := hv
  cases l with
  | nil =>
      obtain ⟨hn, _⟩ := (seg_nil_iff H s s).mp hseg
      unfold collect
      rw [hn]
      match fuel, hf with
      | f + 1, _ => rw [collectAux_step, if_pos rfl]
  | cons f t =>
      obtain ⟨hn, _, h3⟩ := (seg_cons_iff H s f s t).mp hseg
      unfold collect
      rw [hn]
      have hs : s ∉ f :: t := (List.nodup_cons.mp hnd).1
      exact collectAux_walk t H s f fuel h3 hs (by simp at hf ⊢; omega)

theorem ring_next_prev (H : Heap) (s : Nat) (l : List Nat)
    (hv : ValidList H s l) :
    ∀ n ∈ s :: l, ∃ m, m ∈ s :: l ∧
      (H n).m_next = some m ∧ (H m).m_prev = some n := by
  intro n hn
  rcases List.mem_cons.mp hn with hns | hnl
  · refine ⟨firstD l s, ?_, ?_, ?_⟩
    · cases l with
      | nil => simp [firstD]
      | cons b t => simp [firstD]
    · rw [hns]; exact seg_next_head H s s l hv.1
    · rw [hns]; exact seg_prev_head H s s l hv.1
  · obtain ⟨l1, l2, rfl⟩ := List.append_of_mem hnl
    obtain ⟨hA, hB⟩ := (seg_append H s s n l1 l2).mp hv.1
    refine ⟨firstD l2 s, ?_, seg_next_head H n s l2 hB, seg_prev_head H n s l2 hB⟩
    cases l2 with
    | nil => simp [firstD]
    | cons b t => simp [firstD]

theorem ring_prev_next (H : Heap) (s : Nat) (l : List Nat)
    (hv : ValidList H s l) :
    ∀ n ∈ s :: l, ∃ m, m ∈ s :: l ∧
      (H n).m_prev = some m ∧ (H m).m_next = some n := by
  intro n hn
  rcases List.mem_cons.mp hn with hns | hnl
  · refine ⟨lastD l s, ?_, ?_, ?_⟩
    · cases l with
      | nil => simp [lastD]
      | cons b t =>
          exact List.mem_cons_of_mem _ (lastD_mem (b :: t) s (by simp))
    · rw [hns]; exact seg_last_prev H s s l hv.1
    · rw [hns]; exact seg_last_next H s s l hv.1
  · obtain ⟨l1, l2, rfl⟩ := List.append_of_mem hnl
    obtain ⟨hA, hB⟩ := (seg_append H s s n l1 l2).mp hv.1
    refine ⟨lastD l1 s, ?_, seg_last_prev H s n l1 hA, seg_last_next H s n l1 hA⟩
    cases l1 with
    | nil => simp [lastD]
    | cons b t =>
        refine List.mem_cons_of_mem _ (List.mem_append_left _ ?_)
        exact lastD_mem (b :: t) s (by simp)

theorem ring_rotate (H : Heap) (s : Nat) (l : List Nat)
    (hv : ValidList H s l) :
    ∀ n ∈ s :: l, ∃ rot, seg H n rot n = true ∧
      (n :: rot).Nodup ∧ rot.length = l.length := by
  intro n hn
  rcases List.mem_cons.mp hn with hns | hnl
  · refine ⟨l, ?_, ?_, rfl⟩
    · rw [hns]; exact hv.1
    · rw [hns]; exact hv.2
  · obtain ⟨l1, l2, rfl⟩ := List.append_of_mem hnl
    obtain ⟨hA, hB⟩ := (seg_append H s s n l1 l2).mp hv.1
    refine ⟨l2 ++ s :: l1, (seg_append H n n s l2 l1).mpr ⟨hB, hA⟩, ?_, by simp; omega⟩
    have hperm : List.Perm ((s :: l1) ++ (n :: l2)) ((n :: l2) ++ (s :: l1)) :=
      List.perm_append_comm
    have h2 : ((s :: l1) ++ (n :: l2)).Nodup := by
      have := hv.2
      simpa using this
    have h3 : ((n :: l2) ++ (s :: l1)).Nodup := hperm.nodup h2
    simpa using h3

theorem nextIter_no_early (H : Heap) (n : Nat) (rot : List Nat) (k : Nat)
    (hseg : seg H n rot n = true) (hnd : (n :: rot).Nodup)
    (hk1 : 1 ≤ k) (hk2 : k ≤ rot.length) :
    nextIter H k (some n) ≠ some n := by
  rw [nextIter_getD rot H n n k hseg hk2]
  intro hcon
  have hgd : (n :: rot).getD k 0 = n := by
    have := Option.some.inj hcon
    exact this
  have hk3 : k < (n :: rot).length := by simp; omega
  have h0 : (0 : Nat) < (n :: rot).length := by simp
  rw [List.getD_eq_getElem (n :: rot) 0 hk3] at hgd
  have hget : (n :: rot).get ⟨k, hk3⟩ = (n :: rot).get ⟨0, h0⟩ := by
    simp only [List.get_eq_getElem]
    rw [hgd]
    rfl
  have hinj := (List.Nodup.get_inj_iff hnd).mp hget
  have hk0 : k = 0 := by
    have := congrArg Fin.val hinj
    simpa using this
  omega

/-! ### Effect of `push_front` -/

theorem pushFront_eq (s x f : Nat) (H : Heap) (hf : (H s).m_next = some f) :
    pushFront s x H =
      some (setNext (setPrev (setNext (setPrev H f (some x)) x (some f)) x
        (some s)) s (some x)) := by
  unfold pushFront push_front
  rw [hf]
  simp only [setPrev_m_next, hf]

theorem pushFront_ok (H : Heap) (s x : Nat) (l : List Nat)
    (hv : ValidList H s l) (hx : x ∉ s :: l) :
    ∃ H2, pushFront s x H = some H2 ∧ ValidList H2 s (x :: l) := by
  obtain ⟨hseg, hnd⟩ := hv
  have hxs : x ≠ s := by simp at hx; tauto
  have hsx : s ≠ x := fun h => hxs h.symm
  have hxl : x ∉ l := by simp at hx; tauto
  have hsl : s ∉ l := (List.nodup_cons.mp hnd).1
  have hndl : l.Nodup := (List.nodup_cons.mp hnd).2
  set f := firstD l s with hfdef
  have hf : (H s).m_next = some f := seg_next_head H s s l hseg
  have hxf : x ≠ f := by
    intro h
    cases l with
    | nil => exact hxs (h.trans rfl)
    | cons b t => exact hxl (h ▸ (hfdef ▸ List.mem_cons_self b t))
  have hfx : f ≠ x := fun h => hxf h.symm
  refine ⟨_, pushFront_eq s x f H hf, ?_, ?_⟩
  · -- seg H2 s (x :: l) s
    rw [seg_cons_iff]
    refine ⟨?_, ?_, ?_⟩
    · simp
    · simp [hxs]
    · -- seg H2 x l s via seg_move from the original ring
      refine seg_move l H _ s s x s hseg hndl ?_ ?_ ?_ ?_ ?_ ?_
      · -- (H2 x).m_next = some (firstD l s)
        simp [hxs, hxf]
      · -- (H2 (firstD l s)).m_prev = some x
        show (setNext (setPrev (setNext (setPrev H f (some x)) x (some f)) x
          (some s)) s (some x) f).m_prev = some x
        simp [hfx]
      · -- (H2 (lastD l x)).m_next = some s
        cases l with
        | nil =>
            have hfs : f = s := rfl
            show (setNext (setPrev (setNext (setPrev H f (some x)) x (some f)) x
              (some s)) s (some x) x).m_next = some s
            simp [hxs, hfs]
        | cons b t =>
            have hmem : lastD (b :: t) x ∈ b :: t := by
              rw [lastD_ne_nil (b :: t) x b (by simp)]
              exact lastD_mem (b :: t) b (by simp)
            have hrs : lastD (b :: t) x ≠ s := fun h => hsl (h ▸ hmem)
            have hrx : lastD (b :: t) x ≠ x := fun h => hxl (h ▸ hmem)
            have hlast : lastD (b :: t) x = lastD (b :: t) s :=
              lastD_ne_nil (b :: t) x s (by simp)
            simp only [setNext_m_next_ne _ _ _ _ hrs, setPrev_m_next,
              setNext_m_next_ne _ _ _ _ hrx]
            rw [hlast]
            exact seg_last_next H s s (b :: t) hseg
      · -- (H2 s).m_prev = some (lastD l x)
        cases l with
        | nil =>
            have hfs : f = s := rfl
            show (setNext (setPrev (setNext (setPrev H f (some x)) x (some f)) x
              (some s)) s (some x) s).m_prev = some x
            rw [hfs]
            simp [hsx]
        | cons b t =>
            have hfmem : f ∈ b :: t := hfdef ▸ List.mem_cons_self b t
            have hsf : s ≠ f := fun h => hsl (h ▸ hfmem)
            have hlast : lastD (b :: t) x = lastD (b :: t) s :=
              lastD_ne_nil (b :: t) x s (by simp)
            simp only [setNext_m_prev, setPrev_m_prev_ne _ _ _ _ hsx,
              setPrev_m_prev_ne _ _ _ _ hsf]
            rw [hlast]
            exact seg_last_prev H s s (b :: t) hseg
      · intro n hn _
        have hns : n ≠ s := fun h => hsl (h ▸ hn)
        have hnx : n ≠ x := fun h => hxl (h ▸ hn)
        simp [hns, hnx]
      · intro n hn hne
        have hnx : n ≠ x := fun h => hxl (h ▸ hn)
        have hnf : n ≠ f := hfdef ▸ hne
        simp [hnx, hnf]
  · -- Nodup (s :: x :: l)
    simp at hx ⊢
    tauto

/-! ### Effect of `push_back` -/

theorem pushBack_eq (s x p : Nat) (H : Heap) (hp : (H s).m_prev = some p) :
    pushBack s x H =
      some (setPrev (setNext (setPrev (setNext H p (some x)) x (some p)) x
        (some s)) s (some x)) := by
  unfold pushBack push_back
  rw [hp]
  simp only [setNext_m_prev, hp]

theorem pushBack_ok (H : Heap) (s x : Nat) (l : List Nat)
    (hv : ValidList H s l) (hx : x ∉ s :: l) :
    ∃ H2, pushBack s x H = some H2 ∧ ValidList H2 s (l ++ [x]) := by
  obtain ⟨hseg, hnd⟩ := hv
  have hxs : x ≠ s := by simp at hx; tauto
  have hsx : s ≠ x := fun h => hxs h.symm
  have hxl : x ∉ l := by simp at hx; tauto
  have hsl : s ∉ l := (List.nodup_cons.mp hnd).1
  have hndl : l.Nodup := (List.nodup_cons.mp hnd).2
  set p := lastD l s with hpdef
  have hp : (H s).m_prev = some p := seg_last_prev H s s l hseg
  have hxp : x ≠ p := by
    intro h
    cases l with
    | nil => exact hxs (h.trans rfl)
    | cons b t => exact hxl (h ▸ (hpdef ▸ lastD_mem (b :: t) s (by simp)))
  have hpx : p ≠ x := fun h => hxp h.symm
  refine ⟨_, pushBack_eq s x p H hp, ?_, ?_⟩
  · -- seg H2 s (l ++ [x]) s
    rw [seg_append]
    constructor
    · -- seg H2 s l x via seg_move from the original ring
      refine seg_move l H _ s s s x hseg hndl ?_ ?_ ?_ ?_ ?_ ?_
      · -- (H2 s).m_next = some (firstD l x)
        cases l with
        | nil =>
            have hps : p = s := rfl
            show (setPrev (setNext (setPrev (setNext H p (some x)) x (some p)) x
              (some s)) s (some x) s).m_next = some x
            rw [hps]
            simp [hsx]
        | cons b t =>
            have hpmem : p ∈ b :: t := hpdef ▸ lastD_mem (b :: t) s (by simp)
            have hsp : s ≠ p := fun h => hsl (h ▸ hpmem)
            show (setPrev (setNext (setPrev (setNext H p (some x)) x (some p)) x
              (some s)) s (some x) s).m_next = some b
            simp only [setPrev_m_next, setNext_m_next_ne _ _ _ _ hsx,
              setNext_m_next_ne _ _ _ _ hsp]
            exact seg_next_head H s s (b :: t) hseg
      · -- (H2 (firstD l x)).m_prev = some s
        cases l with
        | nil =>
            have hps : p = s := rfl
            show (setPrev (setNext (setPrev (setNext H p (some x)) x (some p)) x
              (some s)) s (some x) x).m_prev = some s
            simp [hxs, hps]
        | cons b t =>
            have hbmem : b ∈ b :: t := List.mem_cons_self b t
            have hbs : b ≠ s := fun h => hsl (h ▸ hbmem)
            have hbx : b ≠ x := fun h => hxl (h ▸ hbmem)
            show (setPrev (setNext (setPrev (setNext H p (some x)) x (some p)) x
              (some s)) s (some x) b).m_prev = some s
            simp only [setPrev_m_prev_ne _ _ _ _ hbs, setNext_m_prev,
              setPrev_m_prev_ne _ _ _ _ hbx]
            exact seg_prev_head H s s (b :: t) hseg
      · -- (H2 (lastD l s)).m_next = some x
        show (setPrev (setNext (setPrev (setNext H p (some x)) x (some p)) x
          (some s)) s (some x) p).m_next = some x
        simp [hpx]
      · -- (H2 x).m_prev = some (lastD l s)
        show (setPrev (setNext (setPrev (setNext H p (some x)) x (some p)) x
          (some s)) s (some x) x).m_prev = some p
        simp [hxs]
      · intro n hn hne
        have hnx : n ≠ x := fun h => hxl (h ▸ hn)
        have hnp : n ≠ p := hpdef ▸ hne
        simp [hnx, hnp]
      · intro n hn _
        have hns : n ≠ s := fun h => hsl (h ▸ hn)
        have hnx : n ≠ x := fun h => hxl (h ▸ hn)
        simp [hns, hnx]
    · -- seg H2 x [] s
      rw [seg_nil_iff]
      constructor
      · simp
      · simp
  · -- Nodup (s :: l ++ [x])
    rw [List.nodup_cons]
    constructor
    · simp
      tauto
    · rw [show l ++ [x] = l ++ x :: [] from rfl, List.nodup_middle]
      simpa using ⟨hxl, hndl⟩

/-! ### Effect of `pop_front` -/

theorem popFront_eq (s f g : Nat) (H : Heap)
    (hf : (H s).m_next = some f) (hg : (H f).m_next = some g) :
    pop_front s H = some (setPrev (setNext H s (some g)) g (some s)) := by
  unfold pop_front
  rw [hf]
  simp only [hg, setNext_m_next_same]

theorem popFront_ok (H : Heap) (s f : Nat) (t : List Nat)
    (hv : ValidList H s (f :: t)) :
    ∃ H2, pop_front s H = some H2 ∧ ValidList H2 s t := by
  obtain ⟨hseg, hnd⟩ := hv
  obtain ⟨hf, hfp, htail⟩ := (seg_cons_iff H s f s t).mp hseg
  have hsl : s ∉ f :: t := (List.nodup_cons.mp hnd).1
  have hst : s ∉ t := by simp at hsl; tauto
  have hft : f ∉ t := (List.nodup_cons.mp (List.nodup_cons.mp hnd).2).1
  have hndt : t.Nodup := (List.nodup_cons.mp (List.nodup_cons.mp hnd).2).2
  set g := firstD t s with hgdef
  have hg : (H f).m_next = some g := seg_next_head H f s t htail
  refine ⟨_, popFront_eq s f g H hf hg, ?_, ?_⟩
  · -- seg H2 s t s via seg_move from seg H f t s
    refine seg_move t H _ f s s s htail hndt ?_ ?_ ?_ ?_ ?_ ?_
    · -- (H2 s).m_next = some (firstD t s)
      show (setPrev (setNext H s (some g)) g (some s) s).m_next = some g
      simp
    · -- (H2 (firstD t s)).m_prev = some s
      show (setPrev (setNext H s (some g)) g (some s) g).m_prev = some s
      simp
    · -- (H2 (lastD t s)).m_next = some s
      cases t with
      | nil =>
          have hgs : g = s := rfl
          show (setPrev (setNext H s (some g)) g (some s) s).m_next = some s
          rw [hgs]
          simp
      | cons c u =>
          have hmem : lastD (c :: u) s ∈ c :: u := lastD_mem (c :: u) s (by simp)
          have hrs : lastD (c :: u) s ≠ s := fun h => hst (h ▸ hmem)
          simp only [setPrev_m_next, setNext_m_next_ne _ _ _ _ hrs]
          have hlast : lastD (c :: u) s = lastD (c :: u) f :=
            lastD_ne_nil (c :: u) s f (by simp)
          rw [hlast]
          exact seg_last_next H f s (c :: u) htail
    · -- (H2 s).m_prev = some (lastD t s)
      cases t with
      | nil =>
          have hgs : g = s := rfl
          show (setPrev (setNext H s (some g)) g (some s) s).m_prev = some s
          rw [hgs]
          simp
      | cons c u =>
          have hgc : g = c := rfl
          have hcs : c ≠ s := fun h => hst (h ▸ List.mem_cons_self c u)
          have hsc : s ≠ c := fun h => hcs h.symm
          show (setPrev (setNext H s (some g)) g (some s) s).m_prev
            = some (lastD (c :: u) s)
          rw [hgc]
          simp only [setPrev_m_prev_ne _ _ _ _ hsc, setNext_m_prev]
          have : (H s).m_prev = some (lastD (f :: c :: u) s) :=
            seg_last_prev H s s (f :: c :: u) hseg
          rw [this, lastD_cons, lastD_ne_nil (c :: u) f s (by simp)]
    · intro n hn _
      have hns : n ≠ s := fun h => hst (h ▸ hn)
      simp [hns]
    · intro n hn hne
      have hng : n ≠ g := hgdef ▸ hne
      simp [hng]
  · exact List.Nodup.cons hst hndt

/-! ### Effect of `pop_back` -/

theorem popBack_eq (s r q : Nat) (H : Heap)
    (hr : (H s).m_prev = some r) (hq : (H r).m_prev = some q) :
    pop_back s H = some (setNext (setPrev H s (some q)) q (some s)) := by
  unfold pop_back
  rw [hr]
  simp only [hq, setPrev_m_prev_same]

theorem popBack_ok (H : Heap) (s r : Nat) (t : List Nat)
    (hv : ValidList H s (t ++ [r])) :
    ∃ H2, pop_back s H = some H2 ∧ ValidList H2 s t := by
  obtain ⟨hseg, hnd⟩ := hv
  obtain ⟨hA, hB⟩ := (seg_append H s s r t []).mp hseg
  obtain ⟨hrn, hsp⟩ := (seg_nil_iff H r s).mp hB
  have hsl : s ∉ t ++ [r] := (List.nodup_cons.mp hnd).1
  have hst : s ∉ t := by simp at hsl; tauto
  have hsr : s ≠ r := by simp at hsl; tauto
  have hrs : r ≠ s := fun h => hsr h.symm
  have hrt : r ∉ t := by
    have := (List.nodup_cons.mp hnd).2
    simp [List.nodup_append] at this
    tauto
  have hndt : t.Nodup := by
    have := (List.nodup_cons.mp hnd).2
    simp [List.nodup_append] at this
    tauto
  set q := lastD t s with hqdef
  have hrlast : lastD (t ++ [r]) s = r := lastD_concat t r s
  have hr : (H s).m_prev = some r := by
    have := seg_last_prev H s s (t ++ [r]) hseg
    rwa [hrlast] at this
  have hq : (H r).m_prev = some q := seg_last_prev H s r t hA
  refine ⟨_, popBack_eq s r q H hr hq, ?_, ?_⟩
  · -- seg H2 s t s via seg_move from seg H s t r
    refine seg_move t H _ s r s s hA hndt ?_ ?_ ?_ ?_ ?_ ?_
    · -- (H2 s).m_next = some (firstD t s)
      cases t with
      | nil =>
          have hqs : q = s := rfl
          show (setNext (setPrev H s (some q)) q (some s) s).m_next = some s
          rw [hqs]
          simp
      | cons b u =>
          have hqmem : q ∈ b :: u := hqdef ▸ lastD_mem (b :: u) s (by simp)
          have hsq : s ≠ q := fun h => hst (h ▸ hqmem)
          show (setNext (setPrev H s (some q)) q (some s) s).m_next = some b
          simp only [setNext_m_next_ne _ _ _ _ hsq, setPrev_m_next]
          have := seg_next_head H s r (b :: u) hA
          rw [this]
          rfl
    · -- (H2 (firstD t s)).m_prev = some s
      cases t with
      | nil =>
          have hqs : q = s := rfl
          show (setNext (setPrev H s (some q)) q (some s) s).m_prev = some s
          rw [hqs]
          simp
      | cons b u =>
          have hbs : b ≠ s := fun h => hst (h ▸ List.mem_cons_self b u)
          show (setNext (setPrev H s (some q)) q (some s) b).m_prev = some s
          simp only [setNext_m_prev, setPrev_m_prev_ne _ _ _ _ hbs]
          have := seg_prev_head H s r (b :: u) hA
          rw [show firstD (b :: u) r = b from rfl] at this
          exact this
    · -- (H2 (lastD t s)).m_next = some s
      show (setNext (setPrev H s (some q)) q (some s) q).m_next = some s
      simp
    · -- (H2 s).m_prev = some (lastD t s)
      show (setNext (setPrev H s (some q)) q (some s) s).m_prev = some q
      simp
    · intro n hn hne
      have hnq : n ≠ q := hqdef ▸ hne
      simp [hnq]
    · intro n hn _
      have hns : n ≠ s := fun h => hst (h ▸ hn)
      simp [hns]
  · exact List.Nodup.cons hst hndt

/-! ### Effect of `erase` / `unlink` -/

theorem nodup_mid_facts (s x : Nat) (l1 l2 : List Nat)
    (h : (s :: (l1 ++ x :: l2)).Nodup) :
    s ∉ l1 ∧ s ∉ l2 ∧ s ≠ x ∧ x ∉ l1 ∧ x ∉ l2 ∧ l1.Nodup ∧ l2.Nodup ∧
      ∀ n ∈ l1, n ∉ l2 := by
  rw [List.nodup_cons] at h
  obtain ⟨hs, h⟩ := h
  simp at hs
  rw [List.nodup_middle, List.nodup_cons] at h
  obtain ⟨hx, h⟩ := h
  simp at hx
  rw [List.nodup_append] at h
  obtain ⟨h1, h2, h3⟩ := h
  exact ⟨by tauto, by tauto, by tauto, by tauto, by tauto, h1, h2,
    fun n hn hn2 => h3 hn hn2⟩

theorem unlink_eq (s x p q : Nat) (H : Heap)
    (hp : (H x).m_prev = some p) (hq : (H x).m_next = some q) :
    unlink s x H =
      some (setPrev (setNext (setPrev (setNext H p (some q)) q (some p)) x
        (some s)) x (some s)) := by
  unfold unlink
  rw [hp, hq]

theorem eraseAux_found (t : List Nat) : ∀ (H : Heap) (s x c fuel : Nat),
    seg H c t x = true → s ∉ c :: t → x ∉ c :: t → x ≠ s →
    t.length + 2 ≤ fuel →
    eraseAux s x H fuel (some c) = (unlink s x H).map (fun h => (true, h)) := by
  induction t with
  | nil =>
      intro H s x c fuel h hs hx hxs hf
      have hcs : c ≠ s := by simp at hs; tauto
      have hcx : c ≠ x := by simp at hx; tauto
      obtain ⟨hn, _⟩ := (seg_nil_iff H c x).mp h
      match fuel, hf with
      | f + 2, _ =>
          rw [eraseAux_step, if_neg hcs, if_neg hcx, hn, eraseAux_step,
            if_neg (fun h => hxs (h : x = s)), if_pos rfl]
  | cons d t ih =>
      intro H s x c fuel h hs hx hxs hf
      have hcs : c ≠ s := by simp at hs; tauto
      have hcx : c ≠ x := by simp at hx; tauto
      obtain ⟨hn, _, h3⟩ := (seg_cons_iff H c d x t).mp h
      match fuel, hf with
      | f + 1, hf =>
          rw [eraseAux_step, if_neg hcs, if_neg hcx, hn]
          refine ih H s x d f h3 ?_ ?_ hxs (by simp at hf ⊢; omega)
          · simp at hs ⊢; tauto
          · simp at hx ⊢; tauto

theorem eraseAux_notfound (t : List Nat) : ∀ (H : Heap) (s x c fuel : Nat),
    seg H c t s = true → s ∉ c :: t → x ∉ c :: t →
    t.length + 2 ≤ fuel →
    eraseAux s x H fuel (some c) = some (false, H) := by
  induction t with
  | nil =>
      intro H s x c fuel h hs hx hf
      have hcs : c ≠ s := by simp at hs; tauto
      have hcx : c ≠ x := by simp at hx; tauto
      obtain ⟨hn, _⟩ := (seg_nil_iff H c s).mp h
      match fuel, hf with
      | f + 2, _ =>
          rw [eraseAux_step, if_neg hcs, if_neg hcx, hn, eraseAux_step,
            if_pos rfl]
  | cons d t ih =>
      intro H s x c fuel h hs hx hf
      have hcs : c ≠ s := by simp at hs; tauto
      have hcx : c ≠ x := by simp at hx; tauto
      obtain ⟨hn, _, h3⟩ := (seg_cons_iff H c d s t).mp h
      match fuel, hf with
      | f + 1, hf =>
          rw [eraseAux_step, if_neg hcs, if_neg hcx, hn]
          refine ih H s x d f h3 ?_ ?_ (by simp at hf ⊢; omega)
          · simp at hs ⊢; tauto
          · simp at hx ⊢; tauto

theorem empty_of_valid_nil (H : Heap) (s : Nat)
    (hv : ValidList H s []) : empty s H = true := by
  obtain ⟨hn, _⟩ := (seg_nil_iff H s s).mp hv.1
  simp [empty, hn]

theorem not_empty_of_valid_cons (H : Heap) (s f : Nat) (t : List Nat)
    (hv : ValidList H s (f :: t)) : empty s H = false := by
  obtain ⟨hn, _, _⟩ := (seg_cons_iff H s f s t).mp hv.1
  have hfs : f ≠ s := by
    intro h
    have := (List.nodup_cons.mp hv.2).1
    simp [h] at this
  simp [empty, hn, hfs]

theorem erase_notfound (H : Heap) (s x : Nat) (l : List Nat) (fuel : Nat)
    (hv : ValidList H s l) (hx : x ∉ l) (hfuel : l.length + 1 ≤ fuel) :
    erase s x H fuel = some (false, H) := by
  cases l with
  | nil =>
      unfold erase
      rw [if_pos (empty_of_valid_nil H s hv)]
  | cons c t =>
      unfold erase
      rw [not_empty_of_valid_cons H s c t hv]
      obtain ⟨hn, _, h3⟩ := (seg_cons_iff H s c s t).mp hv.1
      rw [if_neg (by simp), hn]
      have hs : s ∉ c :: t := (List.nodup_cons.mp hv.2).1
      have hxc : x ∉ c :: t := hx
      exact eraseAux_notfound t H s x c fuel h3 hs hxc
        (by simp at hfuel ⊢; omega)

theorem erase_found (H : Heap) (s x : Nat) (l1 l2 : List Nat) (fuel : Nat)
    (hv : ValidList H s (l1 ++ x :: l2)) (hfuel : l1.length + 2 ≤ fuel) :
    ∃ H2, erase s x H fuel = some (true, H2) ∧
      ValidList H2 s (l1 ++ l2) ∧
      (H2 x).m_prev = some s ∧ (H2 x).m_next = some s ∧
      (H x).m_prev = some (lastD l1 s) ∧ (H x).m_next = some (firstD l2 s) ∧
      (H2 (lastD l1 s)).m_next = some (firstD l2 s) ∧
      (H2 (firstD l2 s)).m_prev = some (lastD l1 s) ∧
      (∀ n, n ≠ x → n ≠ lastD l1 s → n ≠ firstD l2 s → H2 n = H n) := by
  obtain ⟨hseg, hnd⟩ := hv
  obtain ⟨hs1, hs2, hsx, hx1, hx2, hnd1, hnd2, hdisj⟩ :=
    nodup_mid_facts s x l1 l2 hnd
  have hxs : x ≠ s := fun h => hsx h.symm
  obtain ⟨hA, hB⟩ := (seg_append H s s x l1 l2).mp hseg
  set p := lastD l1 s with hpdef
  set q := firstD l2 s with hqdef
  have hp : (H x).m_prev = some p := seg_last_prev H s x l1 hA
  have hq : (H x).m_next = some q := seg_next_head H x s l2 hB
  have hpmem : p ∈ s :: l1 := by
    cases l1 with
    | nil => simp [hpdef, lastD]
    | cons b u =>
        exact List.mem_cons_of_mem _ (hpdef ▸ lastD_mem (b :: u) s (by simp))
  have hqmem : q ∈ s :: l2 := by
    cases l2 with
    | nil => simp [hqdef, firstD]
    | cons b u => simp [hqdef, firstD]
  have hxp : x ≠ p := by
    intro h
    rcases List.mem_cons.mp hpmem with h2 | h2
    · exact hxs (h.trans h2)
    · exact hx1 (h ▸ h2)
  have hpx : p ≠ x := fun h => hxp h.symm
  have hxq : x ≠ q := by
    intro h
    rcases List.mem_cons.mp hqmem with h2 | h2
    · exact hxs (h.trans h2)
    · exact hx2 (h ▸ h2)
  have hqx : q ≠ x := fun h => hxq h.symm
  -- control flow reaches x and unlinks it
  have hflow : erase s x H fuel = (unlink s x H).map (fun h => (true, h)) := by
    cases l1 with
    | nil =>
        unfold erase
        rw [not_empty_of_valid_cons H s x l2 ⟨hseg, hnd⟩]
        rw [if_neg (by simp)]
        obtain ⟨hn, _, _⟩ := (seg_cons_iff H s x s l2).mp hseg
        rw [hn]
        match fuel, hfuel with
        | f + 2, _ =>
            rw [eraseAux_step, if_neg hxs, if_pos rfl]
    | cons c t =>
        unfold erase
        have hv2 : ValidList H s (c :: (t ++ x :: l2)) :=
          ⟨by simpa using hseg, by simpa using hnd⟩
        rw [not_empty_of_valid_cons H s c (t ++ x :: l2) hv2]
        rw [if_neg (by simp)]
        obtain ⟨hcn, hcp, hA2⟩ := (seg_cons_iff H s c x t).mp hA
        rw [hcn]
        refine eraseAux_found t H s x c fuel hA2 ?_ ?_ hxs
          (by simp at hfuel ⊢; omega)
        · simp at hs1 ⊢; tauto
        · simp at hx1 ⊢; tauto
  rw [unlink_eq s x p q H hp hq] at hflow
  -- field facts about the resulting heap
  set Hu := setPrev (setNext (setPrev (setNext H p (some q)) q (some p)) x
    (some s)) x (some s) with hudef
  have e1 : (Hu x).m_prev = some s := by rw [hudef]; simp
  have e2 : (Hu x).m_next = some s := by rw [hudef]; simp
  have e3 : (Hu p).m_next = some q := by rw [hudef]; simp [hpx]
  have e4 : (Hu q).m_prev = some p := by rw [hudef]; simp [hqx]
  have e5 : ∀ n, n ≠ x → n ≠ p → (Hu n).m_next = (H n).m_next := by
    intro n hnx hnp
    rw [hudef]
    simp [hnx, hnp]
  have e6 : ∀ n, n ≠ x → n ≠ q → (Hu n).m_prev = (H n).m_prev := by
    intro n hnx hnq
    rw [hudef]
    simp [hnx, hnq]
  have e7 : ∀ n, n ≠ x → n ≠ p → n ≠ q → Hu n = H n := by
    intro n hnx hnp hnq
    rw [hudef, setPrev_app_ne _ _ _ _ hnx, setNext_app_ne _ _ _ _ hnx,
      setPrev_app_ne _ _ _ _ hnq, setNext_app_ne _ _ _ _ hnp]
  have hsp_ne : l1 ≠ [] → s ≠ p := by
    intro hne h
    exact hs1 (h ▸ (hpdef ▸ lastD_mem l1 s hne))
  have hsq_ne : l2 ≠ [] → s ≠ q := by
    intro hne h
    exact hs2 (h ▸ (hqdef ▸ firstD_mem l2 s hne))
  have hql1 : ∀ n ∈ l1, n ≠ q := by
    intro n hn h
    rcases List.mem_cons.mp hqmem with h2 | h2
    · exact hs1 ((h.trans h2) ▸ hn)
    · exact hdisj n hn (h ▸ h2)
  have hpl2 : ∀ n ∈ l2, n ≠ p := by
    intro n hn h
    rcases List.mem_cons.mp hpmem with h2 | h2
    · exact hs2 ((h.trans h2) ▸ hn)
    · exact hdisj _ h2 (h ▸ hn)
  have hxl1 : ∀ n ∈ l1, n ≠ x := fun n hn h => hx1 (h ▸ hn)
  have hxl2 : ∀ n ∈ l2, n ≠ x := fun n hn h => hx2 (h ▸ hn)
  refine ⟨Hu, by rw [hflow]; rfl, ⟨?_, ?_⟩, e1, e2, hp, hq, e3, e4,
    fun n h1 h2 h3 => e7 n h1 h2 h3⟩
  · -- seg Hu s (l1 ++ l2) s
    cases l2 with
    | nil =>
        have hqs : q = s := rfl
        rw [List.append_nil]
        refine seg_move l1 H Hu s x s s hA hnd1 ?_ ?_ ?_ ?_ ?_ ?_
        · -- (Hu s).m_next = some (firstD l1 s)
          cases l1 with
          | nil =>
              have hps : p = s := rfl
              rw [← hps, e3, hqs]
              rfl
          | cons b u =>
              rw [e5 s hsx (hsp_ne (by simp))]
              exact seg_next_head H s x (b :: u) hA
        · -- (Hu (firstD l1 s)).m_prev = some s
          cases l1 with
          | nil =>
              show (Hu s).m_prev = some s
              rw [← hqs, e4, hqs]
              rfl
          | cons b u =>
              show (Hu (firstD (b :: u) s)).m_prev = some s
              have hb : firstD (b :: u) s = b := rfl
              rw [hb, e6 b (hxl1 b (by simp)) (hql1 b (by simp))]
              exact seg_prev_head H s x (b :: u) hA
        · rw [← hpdef, e3, hqs]
        · rw [← hqs, e4, hqs, ← hpdef]
        · intro n hn hne
          exact e5 n (hxl1 n hn) (hpdef ▸ hne)
        · intro n hn _
          exact e6 n (hxl1 n hn) (hql1 n hn)
    | cons qq l2' =>
        have hqq : q = qq := rfl
        obtain ⟨hqn, hqp, hB2⟩ := (seg_cons_iff H x qq s l2').mp hB
        have hndl2 : qq ∉ l2' := (List.nodup_cons.mp hnd2).1
        have hnd2' : l2'.Nodup := (List.nodup_cons.mp hnd2).2
        rw [seg_append]
        constructor
        · -- seg Hu s l1 q
          refine seg_move l1 H Hu s x s qq hA hnd1 ?_ ?_ ?_ ?_ ?_ ?_
          · cases l1 with
            | nil =>
                have hps : p = s := rfl
                rw [← hps, e3, hqq]
                rfl
            | cons b u =>
                rw [e5 s hsx (hsp_ne (by simp))]
                exact seg_next_head H s x (b :: u) hA
          · cases l1 with
            | nil =>
                show (Hu (firstD [] qq)).m_prev = some s
                have : firstD [] qq = qq := rfl
                rw [this, ← hqq, e4]
                rfl
            | cons b u =>
                show (Hu (firstD (b :: u) qq)).m_prev = some s
                have hb : firstD (b :: u) qq = b := rfl
                rw [hb, e6 b (hxl1 b (by simp)) (hql1 b (by simp))]
                exact seg_prev_head H s x (b :: u) hA
          · rw [← hpdef, e3, hqq]
          · rw [← hqq, e4, ← hpdef]
          · intro n hn hne
            exact e5 n (hxl1 n hn) (hpdef ▸ hne)
          · intro n hn _
            exact e6 n (hxl1 n hn) (hql1 n hn)
        · -- seg Hu qq l2' s
          refine seg_move l2' H Hu qq s qq s hB2 hnd2' ?_ ?_ ?_ ?_ ?_ ?_
          · rw [e5 qq (hxl2 qq (by simp)) (hpl2 qq (by simp))]
            exact seg_next_head H qq s l2' hB2
          · cases l2' with
            | nil =>
                show (Hu s).m_prev = some qq
                rw [e6 s hsx (hsq_ne (by simp))]
                have := seg_last_prev H qq s ([] : List Nat) hB2
                exact this
            | cons m u =>
                show (Hu (firstD (m :: u) s)).m_prev = some qq
                have hm : firstD (m :: u) s = m := rfl
                have hmq : m ≠ qq := fun h => hndl2 (h ▸ List.mem_cons_self m u)
                have hmq2 : m ≠ q := hqq ▸ hmq
                rw [hm, e6 m (hxl2 m (by simp)) hmq2]
                exact seg_prev_head H qq s (m :: u) hB2
          · have hlmem : lastD l2' qq ∈ qq :: l2' := by
              cases l2' with
              | nil => simp [lastD]
              | cons m u =>
                  exact List.mem_cons_of_mem _ (lastD_mem (m :: u) qq (by simp))
            have hlx : lastD l2' qq ≠ x := hxl2 _ hlmem
            have hlp : lastD l2' qq ≠ p := hpl2 _ hlmem
            rw [e5 _ hlx hlp]
            exact seg_last_next H qq s l2' hB2
          · rw [e6 s hsx (hsq_ne (hqq ▸ by simp))]
            exact seg_last_prev H qq s l2' hB2
          · intro n hn hne
            have hnl2 : n ∈ qq :: l2' := List.mem_cons_of_mem _ hn
            exact e5 n (hxl2 n hnl2) (hpl2 n hnl2)
          · intro n hn hne
            have hnq : n ≠ qq := fun h => hndl2 (h ▸ hn)
            exact e6 n (hxl2 n (List.mem_cons_of_mem _ hn)) (hqq ▸ hnq)
  · -- Nodup (s :: l1 ++ l2)
    rw [List.nodup_cons, List.nodup_append]
    refine ⟨by simp; tauto, hnd1, hnd2, fun a ha ha2 => hdisj a ha ha2⟩

/-! ### Effect of `swap` -/

theorem nodup_quad_facts (s u v : Nat) (l1 l2 l3 : List Nat)
    (h : (s :: (l1 ++ u :: (l2 ++ v :: l3))).Nodup) :
    s ≠ u ∧ s ≠ v ∧ u ≠ v ∧ s ∉ l1 ∧ s ∉ l2 ∧ s ∉ l3 ∧
    u ∉ l1 ∧ u ∉ l2 ∧ u ∉ l3 ∧ v ∉ l1 ∧ v ∉ l2 ∧ v ∉ l3 ∧
    l1.Nodup ∧ l2.Nodup ∧ l3.Nodup ∧
    (∀ n ∈ l1, n ∉ l2) ∧ (∀ n ∈ l1, n ∉ l3) ∧ (∀ n ∈ l2, n ∉ l3) := by
  rw [List.nodup_cons] at h
  obtain ⟨hs, h⟩ := h
  rw [List.nodup_middle, List.nodup_cons] at h
  obtain ⟨hu, h⟩ := h
  rw [← List.append_assoc, List.nodup_middle, List.nodup_cons] at h
  obtain ⟨hv, h⟩ := h
  rw [List.nodup_append] at h
  obtain ⟨h12, h3, hd123⟩ := h
  rw [List.nodup_append] at h12
  obtain ⟨h1, h2, hd12⟩ := h12
  simp only [List.mem_append, List.mem_cons] at hs hu hv
  push_neg at hs hu hv
  refine ⟨hs.2.1, hs.2.2.2.1, hu.2.2.1, hs.1, hs.2.2.1, hs.2.2.2.2,
    hu.1, hu.2.1, hu.2.2.2, hv.1.1, hv.1.2, hv.2, h1, h2, h3,
    fun n hn hn2 => hd12 hn hn2, ?_, ?_⟩
  · intro n hn hn3
    exact hd123 (List.mem_append_left _ hn) hn3
  · intro n hn hn3
    exact hd123 (List.mem_append_right _ hn) hn3

theorem swap_adjacent_eq (u v lp rn : Nat) (H : Heap)
    (hp : (H u).m_prev = some lp) (hn : (H v).m_next = some rn) :
    swap_adjacent u v H =
      some (setPrev (setNext (setNext (setPrev (setNext (setPrev H u (some v))
        u (some rn)) v (some lp)) v (some u)) lp (some v)) rn (some u)) := by
  unfold swap_adjacent
  rw [hp, hn]

theorem swap_adjacent_ok (H : Heap) (s u v : Nat) (l1 l3 : List Nat)
    (hv : ValidList H s (l1 ++ u :: v :: l3)) :
    ∃ H2, swap_adjacent u v H = some H2 ∧
      ValidList H2 s (l1 ++ v :: u :: l3) := by
  obtain ⟨hseg, hnd⟩ := hv
  obtain ⟨hsu, hsv, huv, hsl1, _, hsl3, hul1, _, hul3, hvl1, _, hvl3,
    hnd1, _, hnd3, _, hd13, _⟩ :=
    nodup_quad_facts s u v l1 [] l3 (by simpa using hnd)
  have hus : u ≠ s := fun h => hsu h.symm
  have hvs : v ≠ s := fun h => hsv h.symm
  have hvu : v ≠ u := fun h => huv h.symm
  obtain ⟨hA, hB0⟩ := (seg_append H s s u l1 (v :: l3)).mp hseg
  obtain ⟨huvn, hvup, hB⟩ := (seg_cons_iff H u v s l3).mp hB0
  set lp := lastD l1 s with hlpdef
  set rn := firstD l3 s with hrndef
  have hlp : (H u).m_prev = some lp := seg_last_prev H s u l1 hA
  have hrn : (H v).m_next = some rn := seg_next_head H v s l3 hB
  have hlpmem : lp ∈ s :: l1 := by
    cases l1 with
    | nil => simp [hlpdef, lastD]
    | cons b t =>
        exact List.mem_cons_of_mem _ (hlpdef ▸ lastD_mem (b :: t) s (by simp))
  have hrnmem : rn ∈ s :: l3 := by
    cases l3 with
    | nil => simp [hrndef, firstD]
    | cons b t => simp [hrndef, firstD]
  have hulp : u ≠ lp := by
    intro h
    rcases List.mem_cons.mp hlpmem with h2 | h2
    · exact hus (h.trans h2)
    · exact hul1 (h ▸ h2)
  have hvlp : v ≠ lp := by
    intro h
    rcases List.mem_cons.mp hlpmem with h2 | h2
    · exact hvs (h.trans h2)
    · exact hvl1 (h ▸ h2)
  have hurn : u ≠ rn := by
    intro h
    rcases List.mem_cons.mp hrnmem with h2 | h2
    · exact hus (h.trans h2)
    · exact hul3 (h ▸ h2)
  have hvrn : v ≠ rn := by
    intro h
    rcases List.mem_cons.mp hrnmem with h2 | h2
    · exact hvs (h.trans h2)
    · exact hvl3 (h ▸ h2)
  have hlpu : lp ≠ u := fun h => hulp h.symm
  have hlpv : lp ≠ v := fun h => hvlp h.symm
  have hrnu : rn ≠ u := fun h => hurn h.symm
  have hrnv : rn ≠ v := fun h => hvrn h.symm
  set Hs := setPrev (setNext (setNext (setPrev (setNext (setPrev H u (some v))
    u (some rn)) v (some lp)) v (some u)) lp (some v)) rn (some u) with hsdef
  have e1 : (Hs u).m_prev = some v := by rw [hsdef]; simp [hurn, huv]
  have e2 : (Hs u).m_next = some rn := by rw [hsdef]; simp [hulp, huv]
  have e3 : (Hs v).m_prev = some lp := by rw [hsdef]; simp [hvrn]
  have e4 : (Hs v).m_next = some u := by rw [hsdef]; simp [hvlp]
  have e5 : (Hs lp).m_next = some v := by rw [hsdef]; simp
  have e6 : (Hs rn).m_prev = some u := by rw [hsdef]; simp
  have e7 : ∀ n, n ≠ u → n ≠ v → n ≠ lp → (Hs n).m_next = (H n).m_next := by
    intro n h1 h2 h3
    rw [hsdef]
    simp [h1, h2, h3]
  have e8 : ∀ n, n ≠ u → n ≠ v → n ≠ rn → (Hs n).m_prev = (H n).m_prev := by
    intro n h1 h2 h3
    rw [hsdef]
    simp [h1, h2, h3]
  have hl1x : ∀ n ∈ l1, n ≠ u ∧ n ≠ v ∧ n ≠ rn := by
    intro n hn
    refine ⟨fun h => hul1 (h ▸ hn), fun h => hvl1 (h ▸ hn), ?_⟩
    intro h
    rcases List.mem_cons.mp hrnmem with h2 | h2
    · exact hsl1 ((h.trans h2) ▸ hn)
    · exact hd13 n hn (h ▸ h2)
  have hl3x : ∀ n ∈ l3, n ≠ u ∧ n ≠ v ∧ n ≠ lp := by
    intro n hn
    refine ⟨fun h => hul3 (h ▸ hn), fun h => hvl3 (h ▸ hn), ?_⟩
    intro h
    rcases List.mem_cons.mp hlpmem with h2 | h2
    · exact hsl3 ((h.trans h2) ▸ hn)
    · exact hd13 _ h2 (h ▸ hn)
  refine ⟨Hs, swap_adjacent_eq u v lp rn H hlp hrn, ?_, ?_⟩
  · -- seg Hs s (l1 ++ v :: u :: l3) s
    rw [seg_append]
    refine ⟨?_, ?_⟩
    · -- seg Hs s l1 v
      refine seg_move l1 H Hs s u s v hA hnd1 ?_ ?_ ?_ ?_ ?_ ?_
      · cases l1 with
        | nil =>
            have : lp = s := rfl
            rw [← this, e5]
            rfl
        | cons b t =>
            have hslp : s ≠ lp := by
              intro h
              exact hsl1 (h ▸ (hlpdef ▸ lastD_mem (b :: t) s (by simp)))
            rw [e7 s hsu hsv hslp]
            exact seg_next_head H s u (b :: t) hA
      · cases l1 with
        | nil =>
            show (Hs v).m_prev = some s
            rw [e3]
            rfl
        | cons b t =>
            show (Hs (firstD (b :: t) v)).m_prev = some s
            have hb : firstD (b :: t) v = b := rfl
            obtain ⟨h1, h2, h3⟩ := hl1x b (by simp)
            rw [hb, e8 b h1 h2 h3]
            exact seg_prev_head H s u (b :: t) hA
      · rw [← hlpdef, e5]
      · rw [e3, ← hlpdef]
      · intro n hn hne
        obtain ⟨h1, h2, _⟩ := hl1x n hn
        exact e7 n h1 h2 (hlpdef ▸ hne)
      · intro n hn _
        obtain ⟨h1, h2, h3⟩ := hl1x n hn
        exact e8 n h1 h2 h3
    · -- seg Hs v (u :: l3) s
      rw [seg_cons_iff]
      refine ⟨e4, e1, ?_⟩
      -- seg Hs u l3 s
      refine seg_move l3 H Hs v s u s hB hnd3 ?_ ?_ ?_ ?_ ?_ ?_
      · rw [e2, ← hrndef]
      · rw [← hrndef, e6]
      · cases l3 with
        | nil =>
            have : rn = s := rfl
            show (Hs u).m_next = some s
            rw [e2, this]
        | cons c t =>
            have hmem : lastD (c :: t) u ∈ c :: t := by
              rw [lastD_ne_nil (c :: t) u c (by simp)]
              exact lastD_mem (c :: t) c (by simp)
            obtain ⟨h1, h2, h3⟩ := hl3x _ hmem
            rw [e7 _ h1 h2 h3]
            have hlast : lastD (c :: t) u = lastD (c :: t) v :=
              lastD_ne_nil (c :: t) u v (by simp)
            rw [hlast]
            exact seg_last_next H v s (c :: t) hB
      · cases l3 with
        | nil =>
            have hrs : rn = s := rfl
            show (Hs s).m_prev = some u
            rw [← hrs, e6]
        | cons c t =>
            have hsrn : s ≠ rn := by
              intro h
              exact hsl3 (h ▸ (hrndef ▸ firstD_mem (c :: t) s (by simp)))
            rw [e8 s hsu hsv hsrn]
            have := seg_last_prev H v s (c :: t) hB
            rw [this, lastD_ne_nil (c :: t) v u (by simp)]
      · intro n hn hne
        obtain ⟨h1, h2, h3⟩ := hl3x n hn
        exact e7 n h1 h2 h3
      · intro n hn hne
        obtain ⟨h1, h2, _⟩ := hl3x n hn
        refine e8 n h1 h2 ?_
        rw [hrndef]
        exact hne
  · -- Nodup
    have hperm : List.Perm (l1 ++ u :: v :: l3) (l1 ++ v :: u :: l3) :=
      List.Perm.append_left l1 (List.Perm.swap v u l3)
    have := (List.Perm.cons s hperm).nodup hnd
    exact this

theorem firstD_ne_nil (l : List Nat) (d d2 : Nat) (h : l ≠ []) :
    firstD l d = firstD l d2 := by
  cases l with
  | nil => exact absurd rfl h
  | cons x xs => rfl

theorem swap_far_eq (a b ap an bp bn : Nat) (H : Heap)
    (hap : (H a).m_prev = some ap) (han : (H a).m_next = some an)
    (hbp : (H b).m_prev = some bp) (hbn : (H b).m_next = some bn) :
    swap_far a b H =
      some (setNext (setPrev (setNext (setPrev (setPrev (setNext (setPrev
        (setNext H ap (some b)) an (some b)) bp (some a)) bn (some a)) b
        (some ap)) b (some an)) a (some bp)) a (some bn)) := by
  unfold swap_far
  rw [hap, han, hbp, hbn]

theorem swap_far_fields (H Hf : Heap) (a b ap an bp bn : Nat)
    (hf : Hf = setNext (setPrev (setNext (setPrev (setPrev (setNext (setPrev
      (setNext H ap (some b)) an (some b)) bp (some a)) bn (some a)) b
      (some ap)) b (some an)) a (some bp)) a (some bn))
    (hba : b ≠ a)
    (hapa : ap ≠ a) (hapb : ap ≠ b) (hapbp : ap ≠ bp)
    (hana : an ≠ a) (hanb : an ≠ b) (hanbn : an ≠ bn)
    (hbpa : bp ≠ a) (hbpb : bp ≠ b)
    (hbna : bn ≠ a) (hbnb : bn ≠ b) :
    (Hf a).m_prev = some bp ∧ (Hf a).m_next = some bn ∧
    (Hf b).m_prev = some ap ∧ (Hf b).m_next = some an ∧
    (Hf ap).m_next = some b ∧ (Hf an).m_prev = some b ∧
    (Hf bp).m_next = some a ∧ (Hf bn).m_prev = some a ∧
    (∀ n, n ≠ a → n ≠ b → n ≠ ap → n ≠ bp → (Hf n).m_next = (H n).m_next) ∧
    (∀ n, n ≠ a → n ≠ b → n ≠ an → n ≠ bn → (Hf n).m_prev = (H n).m_prev) := by
  subst hf
  refine ⟨by simp, by simp, by simp [hba], by simp [hba], ?_, ?_, ?_, ?_, ?_, ?_⟩
  · simp [hapa, hapb, hapbp]
  · simp [hana, hanb, hanbn]
  · simp [hbpa, hbpb]
  · simp [hbna, hbnb]
  · intro n h1 h2 h3 h4
    simp [h1, h2, h3, h4]
  · intro n h1 h2 h3 h4
    simp [h1, h2, h3, h4]

theorem swap_far_ok_left (H : Heap) (s a b : Nat) (l1 l2 l3 : List Nat)
    (hv : ValidList H s (l1 ++ a :: (l2 ++ b :: l3))) (hne : l2 ≠ []) :
    ∃ H2, swap_far a b H = some H2 ∧
      ValidList H2 s (l1 ++ b :: (l2 ++ a :: l3)) := by
  obtain ⟨hseg, hnd⟩ := hv
  obtain ⟨hsa, hsb, hab, hsl1, hsl2, hsl3, hal1, hal2, hal3, hbl1, hbl2, hbl3,
    hnd1, hnd2, hnd3, hd12, hd13, hd23⟩ := nodup_quad_facts s a b l1 l2 l3 hnd
  have hba : b ≠ a := fun h => hab h.symm
  have has : a ≠ s := fun h => hsa h.symm
  have hbs : b ≠ s := fun h => hsb h.symm
  obtain ⟨hA, hRest⟩ := (seg_append H s s a l1 (l2 ++ b :: l3)).mp hseg
  obtain ⟨hM, hB⟩ := (seg_append H a s b l2 l3).mp hRest
  set ap := lastD l1 s with hapdef
  set an := firstD l2 b with handef
  set bp := lastD l2 a with hbpdef
  set bn := firstD l3 s with hbndef
  have hap : (H a).m_prev = some ap := seg_last_prev H s a l1 hA
  have han : (H a).m_next = some an := seg_next_head H a b l2 hM
  have hbp : (H b).m_prev = some bp := seg_last_prev H a b l2 hM
  have hbn : (H b).m_next = some bn := seg_next_head H b s l3 hB
  have hapmem : ap ∈ s :: l1 := by
    cases l1 with
    | nil => simp [hapdef, lastD]
    | cons c t =>
        exact List.mem_cons_of_mem _ (hapdef ▸ lastD_mem (c :: t) s (by simp))
  have hanmem : an ∈ l2 := handef ▸ firstD_mem l2 b hne
  have hbpmem : bp ∈ l2 := hbpdef ▸ lastD_mem l2 a hne
  have hbnmem : bn ∈ s :: l3 := by
    cases l3 with
    | nil => simp [hbndef, firstD]
    | cons c t => simp [hbndef, firstD]
  have hapa : ap ≠ a := by
    intro h
    rcases List.mem_cons.mp hapmem with h2 | h2
    · exact has (h.symm.trans h2)
    · exact hal1 (h ▸ h2)
  have hapb : ap ≠ b := by
    intro h
    rcases List.mem_cons.mp hapmem with h2 | h2
    · exact hbs (h.symm.trans h2)
    · exact hbl1 (h ▸ h2)
  have hapbp : ap ≠ bp := by
    intro h
    rcases List.mem_cons.mp hapmem with h2 | h2
    · exact hsl2 (h2 ▸ h ▸ hbpmem)
    · exact hd12 _ h2 (h ▸ hbpmem)
  have hana : an ≠ a := fun h => hal2 (h ▸ hanmem)
  have hanb : an ≠ b := fun h => hbl2 (h ▸ hanmem)
  have hanbn : an ≠ bn := by
    intro h
    rcases List.mem_cons.mp hbnmem with h2 | h2
    · exact hsl2 ((h.trans h2) ▸ hanmem)
    · exact hd23 _ hanmem (h ▸ h2)
  have hbpa : bp ≠ a := fun h => hal2 (h ▸ hbpmem)
  have hbpb : bp ≠ b := fun h => hbl2 (h ▸ hbpmem)
  have hbna : bn ≠ a := by
    intro h
    rcases List.mem_cons.mp hbnmem with h2 | h2
    · exact has (h.symm.trans h2)
    · exact hal3 (h ▸ h2)
  have hbnb : bn ≠ b := by
    intro h
    rcases List.mem_cons.mp hbnmem with h2 | h2
    · exact hbs (h.symm.trans h2)
    · exact hbl3 (h ▸ h2)
  set Hf := setNext (setPrev (setNext (setPrev (setPrev (setNext (setPrev
    (setNext H ap (some b)) an (some b)) bp (some a)) bn (some a)) b
    (some ap)) b (some an)) a (some bp)) a (some bn) with hfdef
  obtain ⟨f1, f2, f3, f4, f5, f6, f7, f8, f9, f10⟩ :=
    swap_far_fields H Hf a b ap an bp bn hfdef hba hapa hapb hapbp hana hanb
      hanbn hbpa hbpb hbna hbnb
  have hl1x : ∀ n ∈ l1, n ≠ a ∧ n ≠ b ∧ n ≠ bp ∧ n ≠ an ∧ n ≠ bn := by
    intro n hn
    refine ⟨fun h => hal1 (h ▸ hn), fun h => hbl1 (h ▸ hn),
      fun h => hd12 _ hn (h ▸ hbpmem), fun h => hd12 _ hn (h ▸ hanmem), ?_⟩
    intro h
    rcases List.mem_cons.mp hbnmem with h2 | h2
    · exact hsl1 ((h.trans h2) ▸ hn)
    · exact hd13 _ hn (h ▸ h2)
  have hl2x : ∀ n ∈ l2, n ≠ a ∧ n ≠ b ∧ n ≠ ap ∧ n ≠ bn := by
    intro n hn
    refine ⟨fun h => hal2 (h ▸ hn), fun h => hbl2 (h ▸ hn), ?_, ?_⟩
    · intro h
      rcases List.mem_cons.mp hapmem with h2 | h2
      · exact hsl2 ((h.trans h2) ▸ hn)
      · exact hd12 _ h2 (h ▸ hn)
    · intro h
      rcases List.mem_cons.mp hbnmem with h2 | h2
      · exact hsl2 ((h.trans h2) ▸ hn)
      · exact hd23 _ hn (h ▸ h2)
  have hl3x : ∀ n ∈ l3, n ≠ a ∧ n ≠ b ∧ n ≠ ap ∧ n ≠ bp ∧ n ≠ an := by
    intro n hn
    refine ⟨fun h => hal3 (h ▸ hn), fun h => hbl3 (h ▸ hn), ?_,
      fun h => hd23 _ hbpmem (h ▸ hn), fun h => hd23 _ hanmem (h ▸ hn)⟩
    intro h
    rcases List.mem_cons.mp hapmem with h2 | h2
    · exact hsl3 ((h.trans h2) ▸ hn)
    · exact hd13 _ h2 (h ▸ hn)
  refine ⟨Hf, by rw [swap_far_eq a b ap an bp bn H hap han hbp hbn, hfdef], ?_, ?_⟩
  · -- seg Hf s (l1 ++ b :: (l2 ++ a :: l3)) s
    rw [seg_append]
    constructor
    · -- seg Hf s l1 b
      refine seg_move l1 H Hf s a s b hA hnd1 ?_ ?_ ?_ ?_ ?_ ?_
      · cases l1 with
        | nil =>
            have : ap = s := hapdef
            rw [← this, f5]
            rfl
        | cons c t =>
            have hsap : s ≠ ap := by
              intro h
              exact hsl1 (h ▸ (hapdef ▸ lastD_mem (c :: t) s (by simp)))
            have hsbp : s ≠ bp := fun h => hsl2 (h ▸ hbpmem)
            rw [f9 s hsa hsb hsap hsbp]
            exact seg_next_head H s a (c :: t) hA
      · cases l1 with
        | nil =>
            show (Hf b).m_prev = some s
            rw [f3]
            have : ap = s := hapdef
            rw [this]
        | cons c t =>
            show (Hf (firstD (c :: t) b)).m_prev = some s
            have hc : firstD (c :: t) b = c := rfl
            obtain ⟨n1, n2, _, n4, n5⟩ := hl1x c (by simp)
            rw [hc, f10 c n1 n2 n4 n5]
            exact seg_prev_head H s a (c :: t) hA
      · rw [← hapdef, f5]
      · rw [f3, ← hapdef]
      · intro n hn hne
        obtain ⟨n1, n2, n3, _, _⟩ := hl1x n hn
        exact f9 n n1 n2 (hapdef ▸ hne) n3
      · intro n hn _
        obtain ⟨n1, n2, _, n4, n5⟩ := hl1x n hn
        exact f10 n n1 n2 n4 n5
    · rw [seg_append]
      constructor
      · -- seg Hf b l2 a
        refine seg_move l2 H Hf a b b a hM hnd2 ?_ ?_ ?_ ?_ ?_ ?_
        · rw [f4, handef, firstD_ne_nil l2 b a hne]
        · rw [firstD_ne_nil l2 a b hne, ← handef, f6]
        · rw [lastD_ne_nil l2 b a hne, ← hbpdef, f7]
        · rw [f1, lastD_ne_nil l2 b a hne, ← hbpdef]
        · intro n hn hne2
          obtain ⟨n1, n2, n3, _⟩ := hl2x n hn
          refine f9 n n1 n2 n3 ?_
          rw [hbpdef, ← lastD_ne_nil l2 b a hne]
          exact hne2
        · intro n hn hne2
          obtain ⟨n1, n2, _, n4⟩ := hl2x n hn
          refine f10 n n1 n2 ?_ n4
          rw [handef, ← firstD_ne_nil l2 a b hne]
          exact hne2
      · -- seg Hf a l3 s
        refine seg_move l3 H Hf b s a s hB hnd3 ?_ ?_ ?_ ?_ ?_ ?_
        · rw [f2, ← hbndef]
        · rw [← hbndef, f8]
        · cases l3 with
          | nil =>
              have : bn = s := hbndef
              show (Hf a).m_next = some s
              rw [f2, this]
          | cons c t =>
              have hmem : lastD (c :: t) a ∈ c :: t := by
                rw [lastD_ne_nil (c :: t) a c (by simp)]
                exact lastD_mem (c :: t) c (by simp)
              obtain ⟨n1, n2, n3, n4, _⟩ := hl3x _ hmem
              rw [f9 _ n1 n2 n3 n4]
              rw [lastD_ne_nil (c :: t) a b (by simp)]
              exact seg_last_next H b s (c :: t) hB
        · cases l3 with
          | nil =>
              have : bn = s := hbndef
              show (Hf s).m_prev = some a
              rw [← this, f8]
          | cons c t =>
              have hsbn : s ≠ bn := by
                intro h
                exact hsl3 (h ▸ (hbndef ▸ firstD_mem (c :: t) s (by simp)))
              have hsan : s ≠ an := fun h => hsl2 (h ▸ hanmem)
              rw [f10 s hsa hsb hsan hsbn]
              rw [show lastD (c :: t) a = lastD (c :: t) b from
                lastD_ne_nil (c :: t) a b (by simp)]
              exact seg_last_prev H b s (c :: t) hB
        · intro n hn hne2
          obtain ⟨n1, n2, n3, n4, _⟩ := hl3x n hn
          exact f9 n n1 n2 n3 n4
        · intro n hn hne2
          obtain ⟨n1, n2, _, _, n5⟩ := hl3x n hn
          refine f10 n n1 n2 n5 (hbndef ▸ hne2)
  · -- Nodup
    have hmid : List.Perm (a :: (l2 ++ b :: l3)) (b :: (l2 ++ a :: l3)) := by
      refine List.Perm.trans (List.Perm.cons a List.perm_middle) ?_
      refine List.Perm.trans (List.Perm.swap b a (l2 ++ l3)) ?_
      exact List.Perm.cons b List.perm_middle.symm
    have hperm : List.Perm (l1 ++ a :: (l2 ++ b :: l3))
        (l1 ++ b :: (l2 ++ a :: l3)) := List.Perm.append_left l1 hmid
    exact (List.Perm.cons s hperm).nodup hnd

theorem swap_far_ok_right (H : Heap) (s a b : Nat) (l1 l2 l3 : List Nat)
    (hv : ValidList H s (l1 ++ b :: (l2 ++ a :: l3))) (hne : l2 ≠ []) :
    ∃ H2, swap_far a b H = some H2 ∧
      ValidList H2 s (l1 ++ a :: (l2 ++ b :: l3)) := by
  obtain ⟨hseg, hnd⟩ := hv
  obtain ⟨hsb, hsa, hba, hsl1, hsl2, hsl3, hbl1, hbl2, hbl3, hal1, hal2, hal3,
    hnd1, hnd2, hnd3, hd12, hd13, hd23⟩ := nodup_quad_facts s b a l1 l2 l3 hnd
  have hab : a ≠ b := fun h => hba h.symm
  have has : a ≠ s := fun h => hsa h.symm
  have hbs : b ≠ s := fun h => hsb h.symm
  obtain ⟨hA, hRest⟩ := (seg_append H s s b l1 (l2 ++ a :: l3)).mp hseg
  obtain ⟨hM, hB⟩ := (seg_append H b s a l2 l3).mp hRest
  set bp := lastD l1 s with hbpdef
  set bn := firstD l2 a with hbndef
  set ap := lastD l2 b with hapdef
  set an := firstD l3 s with handef
  have hbp : (H b).m_prev = some bp := seg_last_prev H s b l1 hA
  have hbn : (H b).m_next = some bn := seg_next_head H b a l2 hM
  have hap : (H a).m_prev = some ap := seg_last_prev H b a l2 hM
  have han : (H a).m_next = some an := seg_next_head H a s l3 hB
  have hbpmem : bp ∈ s :: l1 := by
    cases l1 with
    | nil => simp [hbpdef, lastD]
    | cons c t =>
        exact List.mem_cons_of_mem _ (hbpdef ▸ lastD_mem (c :: t) s (by simp))
  have hbnmem : bn ∈ l2 := hbndef ▸ firstD_mem l2 a hne
  have hapmem : ap ∈ l2 := hapdef ▸ lastD_mem l2 b hne
  have hanmem : an ∈ s :: l3 := by
    cases l3 with
    | nil => simp [handef, firstD]
    | cons c t => simp [handef, firstD]
  have hapa : ap ≠ a := fun h => hal2 (h ▸ hapmem)
  have hapb : ap ≠ b := fun h => hbl2 (h ▸ hapmem)
  have hapbp : ap ≠ bp := by
    intro h
    rcases List.mem_cons.mp hbpmem with h2 | h2
    · exact hsl2 ((h.trans h2) ▸ hapmem)
    · exact hd12 _ h2 (h ▸ hapmem)
  have hana : an ≠ a := by
    intro h
    rcases List.mem_cons.mp hanmem with h2 | h2
    · exact has (h.symm.trans h2)
    · exact hal3 (h ▸ h2)
  have hanb : an ≠ b := by
    intro h
    rcases List.mem_cons.mp hanmem with h2 | h2
    · exact hbs (h.symm.trans h2)
    · exact hbl3 (h ▸ h2)
  have hanbn : an ≠ bn := by
    intro h
    rcases List.mem_cons.mp hanmem with h2 | h2
    · exact hsl2 ((h.symm.trans h2).symm ▸ hbnmem)
    · exact hd23 _ hbnmem (h ▸ h2)
  have hbpa : bp ≠ a := by
    intro h
    rcases List.mem_cons.mp hbpmem with h2 | h2
    · exact has (h.symm.trans h2)
    · exact hal1 (h ▸ h2)
  have hbpb : bp ≠ b := by
    intro h
    rcases List.mem_cons.mp hbpmem with h2 | h2
    · exact hbs (h.symm.trans h2)
    · exact hbl1 (h ▸ h2)
  have hbna : bn ≠ a := fun h => hal2 (h ▸ hbnmem)
  have hbnb : bn ≠ b := fun h => hbl2 (h ▸ hbnmem)
  set Hf := setNext (setPrev (setNext (setPrev (setPrev (setNext (setPrev
    (setNext H ap (some b)) an (some b)) bp (some a)) bn (some a)) b
    (some ap)) b (some an)) a (some bp)) a (some bn) with hfdef
  obtain ⟨f1, f2, f3, f4, f5, f6, f7, f8, f9, f10⟩ :=
    swap_far_fields H Hf a b ap an bp bn hfdef hba hapa hapb hapbp hana hanb
      hanbn hbpa hbpb hbna hbnb
  have hl1x : ∀ n ∈ l1, n ≠ a ∧ n ≠ b ∧ n ≠ ap ∧ n ≠ bn ∧ n ≠ an := by
    intro n hn
    refine ⟨fun h => hal1 (h ▸ hn), fun h => hbl1 (h ▸ hn),
      fun h => hd12 _ hn (h ▸ hapmem), fun h => hd12 _ hn (h ▸ hbnmem), ?_⟩
    intro h
    rcases List.mem_cons.mp hanmem with h2 | h2
    · exact hsl1 ((h.trans h2) ▸ hn)
    · exact hd13 _ hn (h ▸ h2)
  have hl2x : ∀ n ∈ l2, n ≠ a ∧ n ≠ b ∧ n ≠ bp ∧ n ≠ an := by
    intro n hn
    refine ⟨fun h => hal2 (h ▸ hn), fun h => hbl2 (h ▸ hn), ?_, ?_⟩
    · intro h
      rcases List.mem_cons.mp hbpmem with h2 | h2
      · exact hsl2 ((h.trans h2) ▸ hn)
      · exact hd12 _ h2 (h ▸ hn)
    · intro h
      rcases List.mem_cons.mp hanmem with h2 | h2
      · exact hsl2 ((h.trans h2) ▸ hn)
      · exact hd23 _ hn (h ▸ h2)
  have hl3x : ∀ n ∈ l3, n ≠ a ∧ n ≠ b ∧ n ≠ bp ∧ n ≠ ap ∧ n ≠ bn := by
    intro n hn
    refine ⟨fun h => hal3 (h ▸ hn), fun h => hbl3 (h ▸ hn), ?_,
      fun h => hd23 _ hapmem (h ▸ hn), fun h => hd23 _ hbnmem (h ▸ hn)⟩
    intro h
    rcases List.mem_cons.mp hbpmem with h2 | h2
    · exact hsl3 ((h.trans h2) ▸ hn)
    · exact hd13 _ h2 (h ▸ hn)
  refine ⟨Hf, by rw [swap_far_eq a b ap an bp bn H hap han hbp hbn, hfdef], ?_, ?_⟩
  · -- seg Hf s (l1 ++ a :: (l2 ++ b :: l3)) s
    rw [seg_append]
    constructor
    · -- seg Hf s l1 a
      refine seg_move l1 H Hf s b s a hA hnd1 ?_ ?_ ?_ ?_ ?_ ?_
      · cases l1 with
        | nil =>
            have : bp = s := hbpdef
            rw [← this, f7]
            rfl
        | cons c t =>
            have hsbp : s ≠ bp := by
              intro h
              exact hsl1 (h ▸ (hbpdef ▸ lastD_mem (c :: t) s (by simp)))
            have hsap : s ≠ ap := fun h => hsl2 (h ▸ hapmem)
            rw [f9 s hsa hsb hsap hsbp]
            exact seg_next_head H s b (c :: t) hA
      · cases l1 with
        | nil =>
            show (Hf a).m_prev = some s
            rw [f1]
            have : bp = s := hbpdef
            rw [this]
        | cons c t =>
            show (Hf (firstD (c :: t) a)).m_prev = some s
            have hc : firstD (c :: t) a = c := rfl
            obtain ⟨n1, n2, _, n4, n5⟩ := hl1x c (by simp)
            rw [hc, f10 c n1 n2 n5 n4]
            exact seg_prev_head H s b (c :: t) hA
      · rw [← hbpdef, f7]
      · rw [f1, ← hbpdef]
      · intro n hn hne2
        obtain ⟨n1, n2, n3, _, _⟩ := hl1x n hn
        exact f9 n n1 n2 n3 (hbpdef ▸ hne2)
      · intro n hn _
        obtain ⟨n1, n2, _, n4, n5⟩ := hl1x n hn
        exact f10 n n1 n2 n5 n4
    · rw [seg_append]
      constructor
      · -- seg Hf a l2 b
        refine seg_move l2 H Hf b a a b hM hnd2 ?_ ?_ ?_ ?_ ?_ ?_
        · rw [f2, hbndef, firstD_ne_nil l2 a b hne]
        · rw [firstD_ne_nil l2 b a hne, ← hbndef, f8]
        · rw [lastD_ne_nil l2 a b hne, ← hapdef, f5]
        · rw [f3, lastD_ne_nil l2 a b hne, ← hapdef]
        · intro n hn hne2
          obtain ⟨n1, n2, n3, _⟩ := hl2x n hn
          refine f9 n n1 n2 ?_ n3
          rw [hapdef, ← lastD_ne_nil l2 a b hne]
          exact hne2
        · intro n hn hne2
          obtain ⟨n1, n2, _, n4⟩ := hl2x n hn
          refine f10 n n1 n2 n4 ?_
          rw [hbndef, ← firstD_ne_nil l2 b a hne]
          exact hne2
      · -- seg Hf b l3 s
        refine seg_move l3 H Hf a s b s hB hnd3 ?_ ?_ ?_ ?_ ?_ ?_
        · rw [f4, ← handef]
        · rw [← handef, f6]
        · cases l3 with
          | nil =>
              have : an = s := handef
              show (Hf b).m_next = some s
              rw [f4, this]
          | cons c t =>
              have hmem : lastD (c :: t) b ∈ c :: t := by
                rw [lastD_ne_nil (c :: t) b c (by simp)]
                exact lastD_mem (c :: t) c (by simp)
              obtain ⟨n1, n2, n3, n4, _⟩ := hl3x _ hmem
              rw [f9 _ n1 n2 n4 n3]
              rw [lastD_ne_nil (c :: t) b a (by simp)]
              exact seg_last_next H a s (c :: t) hB
        · cases l3 with
          | nil =>
              have : an = s := handef
              show (Hf s).m_prev = some b
              rw [← this, f6]
          | cons c t =>
              have hsan : s ≠ an := by
                intro h
                exact hsl3 (h ▸ (handef ▸ firstD_mem (c :: t) s (by simp)))
              have hsbn : s ≠ bn := fun h => hsl2 (h ▸ hbnmem)
              rw [f10 s hsa hsb hsan hsbn]
              rw [show lastD (c :: t) b = lastD (c :: t) a from
                lastD_ne_nil (c :: t) b a (by simp)]
              exact seg_last_prev H a s (c :: t) hB
        · intro n hn hne2
          obtain ⟨n1, n2, n3, n4, _⟩ := hl3x n hn
          exact f9 n n1 n2 n4 n3
        · intro n hn hne2
          obtain ⟨n1, n2, _, _, n5⟩ := hl3x n hn
          exact f10 n n1 n2 (handef ▸ hne2) n5
  · -- Nodup
    have hmid : List.Perm (b :: (l2 ++ a :: l3)) (a :: (l2 ++ b :: l3)) := by
      refine List.Perm.trans (List.Perm.cons b List.perm_middle) ?_
      refine List.Perm.trans (List.Perm.swap a b (l2 ++ l3)) ?_
      exact List.Perm.cons a List.perm_middle.symm
    have hperm : List.Perm (l1 ++ b :: (l2 ++ a :: l3))
        (l1 ++ a :: (l2 ++ b :: l3)) := List.Perm.append_left l1 hmid
    exact (List.Perm.cons s hperm).nodup hnd

/-- Transposition of two addresses, the abstract effect of `swap` on the
node order. -/
def transp (a b n : Nat) : Nat :=
  if n = a then b else if n = b then a else n

theorem transp_left (a b : Nat) : transp a b a = b := by
  unfold transp
  simp

theorem transp_right (a b : Nat) : transp a b b = a := by
  unfold transp
  by_cases h : b = a <;> simp [h]

theorem transp_other (a b n : Nat) (h1 : n ≠ a) (h2 : n ≠ b) :
    transp a b n = n := by
  unfold transp
  simp [h1, h2]

theorem transp_comm (a b n : Nat) : transp a b n = transp b a n := by
  unfold transp
  split_ifs <;> omega

theorem transp_invol (a b n : Nat) : transp a b (transp a b n) = n := by
  by_cases h1 : n = a
  · rw [h1, transp_left, transp_right]
  · by_cases h2 : n = b
    · rw [h2, transp_right, transp_left]
    · rw [transp_other a b n h1 h2, transp_other a b n h1 h2]

theorem map_transp_self (a : Nat) (l : List Nat) : l.map (transp a a) = l := by
  induction l with
  | nil => rfl
  | cons x xs ih =>
      rw [List.map_cons, ih]
      congr 1
      unfold transp
      by_cases h : x = a <;> simp [h]

theorem map_transp_id (a b : Nat) (l : List Nat) (ha : a ∉ l) (hb : b ∉ l) :
    l.map (transp a b) = l := by
  induction l with
  | nil => rfl
  | cons x xs ih =>
      rw [List.map_cons]
      have hxa : x ≠ a := fun h => ha (h ▸ List.mem_cons_self x xs)
      have hxb : x ≠ b := fun h => hb (h ▸ List.mem_cons_self x xs)
      rw [transp_other a b x hxa hxb]
      rw [ih (fun h => ha (List.mem_cons_of_mem x h))
        (fun h => hb (List.mem_cons_of_mem x h))]

theorem map_transp_comm (a b : Nat) (l : List Nat) :
    l.map (transp a b) = l.map (transp b a) := by
  induction l with
  | nil => rfl
  | cons x xs ih => rw [List.map_cons, List.map_cons, transp_comm, ih]

theorem map_transp_split (u v : Nat) (l1 l2 l3 : List Nat)
    (hu1 : u ∉ l1) (hv1 : v ∉ l1) (hu2 : u ∉ l2) (hv2 : v ∉ l2)
    (hu3 : u ∉ l3) (hv3 : v ∉ l3) :
    (l1 ++ u :: (l2 ++ v :: l3)).map (transp u v) =
      l1 ++ v :: (l2 ++ u :: l3) := by
  rw [List.map_append, List.map_cons, List.map_append, List.map_cons]
  rw [map_transp_id u v l1 hu1 hv1, map_transp_id u v l2 hu2 hv2,
    map_transp_id u v l3 hu3 hv3, transp_left, transp_right]

theorem swap_ok (H : Heap) (s a b : Nat) (l : List Nat)
    (hv : ValidList H s l) (ha : a ∈ l) (hb : b ∈ l) :
    ∃ H2, swap a b H = some H2 ∧ ValidList H2 s (l.map (transp a b)) := by
  by_cases hab : a = b
  · refine ⟨H, ?_, ?_⟩
    · unfold swap
      rw [if_pos hab]
    · rw [hab, map_transp_self]
      exact hv
  · have hsplit : (∃ l1 l2 l3, l = l1 ++ a :: (l2 ++ b :: l3)) ∨
        (∃ l1 l2 l3, l = l1 ++ b :: (l2 ++ a :: l3)) := by
      obtain ⟨s1, t1, rfl⟩ := List.append_of_mem ha
      rcases List.mem_append.mp hb with hb1 | hb2
      · obtain ⟨s2, t2, rfl⟩ := List.append_of_mem hb1
        right
        exact ⟨s2, t2, t1, by simp⟩
      · rcases List.mem_cons.mp hb2 with hba | hbt
        · exact absurd hba.symm hab
        · obtain ⟨s2, t2, rfl⟩ := List.append_of_mem hbt
          left
          exact ⟨s1, s2, t2, by simp⟩
    rcases hsplit with ⟨l1, l2, l3, rfl⟩ | ⟨l1, l2, l3, rfl⟩
    · -- a comes first
      obtain ⟨hsa, hsb, hab2, hsl1, hsl2, hsl3, hal1, hal2, hal3, hbl1, hbl2,
        hbl3, _, _, _, _, _, _⟩ := nodup_quad_facts s a b l1 l2 l3 hv.2
      have hmap : (l1 ++ a :: (l2 ++ b :: l3)).map (transp a b) =
          l1 ++ b :: (l2 ++ a :: l3) :=
        map_transp_split a b l1 l2 l3 hal1 hbl1 hal2 hbl2 hal3 hbl3
      rw [hmap]
      obtain ⟨hA, hRest⟩ :=
        (seg_append H s s a l1 (l2 ++ b :: l3)).mp hv.1
      obtain ⟨hM, hB⟩ := (seg_append H a s b l2 l3).mp hRest
      cases l2 with
      | nil =>
          have hleft : is_a_left_b H a b = true := by
            obtain ⟨h1, _⟩ := (seg_nil_iff H a b).mp hM
            simp [is_a_left_b, h1]
          have hstep : swap a b H = swap_adjacent a b H := by
            unfold swap
            rw [if_neg hab, if_pos hleft]
          rw [hstep]
          exact swap_adjacent_ok H s a b l1 l3 hv
      | cons m l2' =>
          have hmb : m ≠ b := fun h => hbl2 (h ▸ List.mem_cons_self m l2')
          have hleft : is_a_left_b H a b = false := by
            have h1 : (H a).m_next = some m := by
              have := seg_next_head H a b (m :: l2') hM
              exact this
            simp [is_a_left_b, h1]
            exact hmb
          have hapne : lastD l1 s ≠ b := by
            intro h
            cases l1 with
            | nil => exact hsb (show s = b from h)
            | cons c t => exact hbl1 (h ▸ lastD_mem (c :: t) s (by simp))
          have hright : is_a_right_b H a b = false := by
            have h1 : (H a).m_prev = some (lastD l1 s) :=
              seg_last_prev H s a l1 hA
            simp [is_a_right_b, h1]
            exact hapne
          have hstep : swap a b H = swap_far a b H := by
            unfold swap
            rw [if_neg hab, if_neg (by simp [hleft]), if_neg (by simp [hright])]
          rw [hstep]
          exact swap_far_ok_left H s a b l1 (m :: l2') l3 hv (by simp)
    · -- b comes first
      obtain ⟨hsb, hsa, hba2, hsl1, hsl2, hsl3, hbl1, hbl2, hbl3, hal1, hal2,
        hal3, _, _, _, _, _, _⟩ := nodup_quad_facts s b a l1 l2 l3 hv.2
      have hmap : (l1 ++ b :: (l2 ++ a :: l3)).map (transp a b) =
          l1 ++ a :: (l2 ++ b :: l3) := by
        rw [map_transp_comm]
        exact map_transp_split b a l1 l2 l3 hbl1 hal1 hbl2 hal2 hbl3 hal3
      rw [hmap]
      obtain ⟨hA, hRest⟩ :=
        (seg_append H s s b l1 (l2 ++ a :: l3)).mp hv.1
      obtain ⟨hM, hB⟩ := (seg_append H b s a l2 l3).mp hRest
      cases l2 with
      | nil =>
          have hanne : firstD l3 s ≠ b := by
            intro h
            cases l3 with
            | nil => exact hsb (show s = b from h)
            | cons c t => exact hbl3 (h ▸ firstD_mem (c :: t) s (by simp))
          obtain ⟨hbn2, hap2⟩ := (seg_nil_iff H b a).mp hM
          have hleft : is_a_left_b H a b = false := by
            have h1 : (H a).m_next = some (firstD l3 s) :=
              seg_next_head H a s l3 hB
            simp [is_a_left_b, h1]
            exact hanne
          have hright : is_a_right_b H a b = true := by
            simp [is_a_right_b, hap2]
          have hstep : swap a b H = swap_adjacent b a H := by
            unfold swap
            rw [if_neg hab, if_neg (by simp [hleft]), if_pos hright]
          rw [hstep]
          exact swap_adjacent_ok H s b a l1 l3 hv
      | cons m l2' =>
          have hmb : m ≠ b := fun h => hbl2 (h ▸ List.mem_cons_self m l2')
          have hma : m ≠ a := fun h => hal2 (h ▸ List.mem_cons_self m l2')
          have hanne : firstD l3 s ≠ b := by
            intro h
            cases l3 with
            | nil => exact hsb (show s = b from h)
            | cons c t => exact hbl3 (h ▸ firstD_mem (c :: t) s (by simp))
          have hapne : lastD (m :: l2') b ≠ b := by
            intro h
            exact hbl2 (h ▸ lastD_mem (m :: l2') b (by simp))
          have hleft : is_a_left_b H a b = false := by
            have h1 : (H a).m_next = some (firstD l3 s) :=
              seg_next_head H a s l3 hB
            simp [is_a_left_b, h1]
            exact hanne
          have hright : is_a_right_b H a b = false := by
            have h1 : (H a).m_prev = some (lastD (m :: l2') b) :=
              seg_last_prev H b a (m :: l2') hM
            simp [is_a_right_b, h1]
            exact hapne
          have hstep : swap a b H = swap_far a b H := by
            unfold swap
            rw [if_neg hab, if_neg (by simp [hleft]), if_neg (by simp [hright])]
          rw [hstep]
          exact swap_far_ok_right H s a b l1 (m :: l2') l3 hv (by simp)

/-! ### Sequences of list operations -/

/-- One call to a mutating operation of `Intrusive_list`. -/
inductive Op where
  | pushFront (x : Nat)
  | pushBack (x : Nat)
  | popFront
  | popBack
  | eraseNode (x : Nat)
  | swapNodes (a b : Nat)
deriving DecidableEq, Repr

/-- The stated precondition of each call: pops only on a non-empty list,
pushed nodes not already linked, swapped nodes linked in the list
(`erase` is the one checked operation and has no precondition). -/
def opPre (s : Nat) (l : List Nat) : Op → Prop
  | .pushFront x => x ∉ s :: l
  | .pushBack x => x ∉ s :: l
  | .popFront => l ≠ []
  | .popBack => l ≠ []
  | .eraseNode _ => True
  | .swapNodes a b => a ∈ l ∧ b ∈ l

/-- Abstract effect of one operation on the sequence of real nodes. -/
def opEff (s : Nat) (l : List Nat) : Op → List Nat
  | .pushFront x => x :: l
  | .pushBack x => l ++ [x]
  | .popFront => l.tail
  | .popBack => l.dropLast
  | .eraseNode x => l.erase x
  | .swapNodes a b => l.map (transp a b)

/-- Run one operation on the heap (`fuel` bounds the `erase` scan). -/
def applyOp (s fuel : Nat) (H : Heap) : Op → Option Heap
  | .pushFront x => pushFront s x H
  | .pushBack x => pushBack s x H
  | .popFront => pop_front s H
  | .popBack => pop_back s H
  | .eraseNode x => (erase s x H fuel).map (fun r => r.2)
  | .swapNodes a b => swap a b H

/-- Run a sequence of operations. -/
def runOps (s fuel : Nat) : List Op → Heap → Option Heap
  | [], H => some H
  | op :: ops, H => (applyOp s fuel H op).bind (runOps s fuel ops)

/-- Abstract effect of a sequence of operations. -/
def opsEff (s : Nat) : List Op → List Nat → List Nat
  | [], l => l
  | op :: ops, l => opsEff s ops (opEff s l op)

/-- Every call of the sequence satisfies its precondition in the state in
which it runs. -/
inductive PreSeq (s : Nat) : List Nat → List Op → Prop where
  | nil (l : List Nat) : PreSeq s l []
  | cons (l : List Nat) (op : Op) (ops : List Op) :
      opPre s l op → PreSeq s (opEff s l op) ops → PreSeq s l (op :: ops)

theorem applyOp_ok (H : Heap) (s : Nat) (l : List Nat) (op : Op) (fuel : Nat)
    (hv : ValidList H s l) (hpre : opPre s l op)
    (hfuel : l.length + 2 ≤ fuel) :
    ∃ H2, applyOp s fuel H op = some H2 ∧ ValidList H2 s (opEff s l op) := by
  cases op with
  | pushFront x => exact pushFront_ok H s x l hv hpre
  | pushBack x => exact pushBack_ok H s x l hv hpre
  | popFront =>
      cases l with
      | nil => exact absurd rfl hpre
      | cons f t => exact popFront_ok H s f t hv
  | popBack =>
      rcases List.eq_nil_or_concat l with rfl | ⟨t, r, rfl⟩
      · exact absurd rfl hpre
      · rw [List.concat_eq_append] at hv ⊢
        have := popBack_ok H s r t hv
        rw [show opEff s (t ++ [r]) Op.popBack = t from List.dropLast_concat]
        exact this
  | eraseNode x =>
      by_cases hx : x ∈ l
      · obtain ⟨l1, l2, rfl⟩ := List.append_of_mem hx
        obtain ⟨_, _, _, hx1, _, _, _, _⟩ := nodup_mid_facts s x l1 l2 hv.2
        obtain ⟨H2, he, hv2, _⟩ := erase_found H s x l1 l2 fuel hv
          (by simp at hfuel ⊢; omega)
        refine ⟨H2, ?_, ?_⟩
        · show (erase s x H fuel).map (fun r => r.2) = some H2
          rw [he]
          rfl
        · rw [show opEff s (l1 ++ x :: l2) (Op.eraseNode x) =
            (l1 ++ x :: l2).erase x from rfl]
          rw [List.erase_append_right (x :: l2) hx1, List.erase_cons_head]
          exact hv2
      · refine ⟨H, ?_, ?_⟩
        · show (erase s x H fuel).map (fun r => r.2) = some H
          rw [erase_notfound H s x l fuel hv hx (by omega)]
          rfl
        · rw [show opEff s l (Op.eraseNode x) = l.erase x from rfl,
            List.erase_of_not_mem hx]
          exact hv
  | swapNodes a b => exact swap_ok H s a b l hv hpre.1 hpre.2

theorem opEff_length_le (s : Nat) (l : List Nat) (op : Op) :
    (opEff s l op).length ≤ l.length + 1 := by
  cases op with
  | pushFront x => simp [opEff]
  | pushBack x => simp [opEff]
  | popFront => simp [opEff]; omega
  | popBack => simp [opEff]; omega
  | eraseNode x =>
      have := List.length_erase_le x l
      simp [opEff]
      omega
  | swapNodes a b => simp [opEff]

theorem runOps_ok (ops : List Op) : ∀ (H : Heap) (s : Nat) (l : List Nat)
    (fuel : Nat), ValidList H s l → PreSeq s l ops →
    l.length + ops.length + 2 ≤ fuel →
    ∃ H2, runOps s fuel ops H = some H2 ∧
      ValidList H2 s (opsEff s ops l) := by
  induction ops with
  | nil =>
      intro H s l fuel hv _ _
      exact ⟨H, rfl, hv⟩
  | cons op ops ih =>
      intro H s l fuel hv hpre hfuel
      cases hpre with
      | cons _ _ _ hp hps =>
          simp only [List.length_cons] at hfuel
          obtain ⟨H1, he, hv1⟩ := applyOp_ok H s l op fuel hv hp (by omega)
          have hlen := opEff_length_le s l op
          obtain ⟨H2, he2, hv2⟩ := ih H1 s (opEff s l op) fuel hv1 hps
            (by omega)
          refine ⟨H2, ?_, hv2⟩
          show (applyOp s fuel H op).bind (runOps s fuel ops) = some H2
          rw [he]
          exact he2

/-! ### Concrete heaps for scenarios and counterexamples -/

/-- All nodes default-constructed (`m_prev = m_next = nullptr`). -/
def nullHeap : Heap := fun _ => ⟨none, none⟩

/-- A default-constructed `Intrusive_list` with its sentinel at address 0. -/
def emptyList0 : Heap := initHeap 0 nullHeap

/-- A list with sentinel at address 0 holding the single node 1. -/
def heap01 : Heap := fun i =>
  if i = 0 then ⟨some 1, some 1⟩
  else if i = 1 then ⟨some 0, some 0⟩ else ⟨none, none⟩

/-- The heap after move-constructing a list (sentinel 2) from the list
with sentinel 0 in `heap01`. -/
def movedHeap : Heap := moveConstruct 2 0 heap01

theorem opsEff_length_le (ops : List Op) : ∀ (s : Nat) (l : List Nat),
    (opsEff s ops l).length ≤ l.length + ops.length := by
  induction ops with
  | nil => intro s l; simp [opsEff]
  | cons op ops ih =>
      intro s l
      have h1 := opEff_length_le s l op
      have h2 := ih s (opEff s l op)
      simp only [opsEff, List.length_cons]
      omega

/-- All per-node ring facts that follow from validity: `n.next.prev == n`,
`n.prev.next == n`, the `next` walk returns to `n` after exactly
`size + 1` steps and not before, and the walk passes the sentinel. -/
theorem ring_properties (H : Heap) (s : Nat) (l : List Nat)
    (hv : ValidList H s l) :
    ∀ n ∈ s :: l,
      (∃ m, (H n).m_next = some m ∧ (H m).m_prev = some n) ∧
      (∃ m, (H n).m_prev = some m ∧ (H m).m_next = some n) ∧
      nextIter H (l.length + 1) (some n) = some n ∧
      (∀ k, 1 ≤ k → k ≤ l.length → nextIter H k (some n) ≠ some n) ∧
      (∃ k, k ≤ l.length ∧ nextIter H k (some n) = some s) := by
  intro n hn
  refine ⟨?_, ?_, ?_, ?_, ?_⟩
  · obtain ⟨m, _, h1, h2⟩ := ring_next_prev H s l hv n hn
    exact ⟨m, h1, h2⟩
  · obtain ⟨m, _, h1, h2⟩ := ring_prev_next H s l hv n hn
    exact ⟨m, h1, h2⟩
  · obtain ⟨rot, hseg, _, hlen⟩ := ring_rotate H s l hv n hn
    have := nextIter_seg rot H n n hseg
    rwa [hlen] at this
  · intro k hk1 hk2
    obtain ⟨rot, hseg, hnd, hlen⟩ := ring_rotate H s l hv n hn
    exact nextIter_no_early H n rot k hseg hnd hk1 (by omega)
  · rcases List.mem_cons.mp hn with hns | hnl
    · exact ⟨0, by omega, by rw [hns]; rfl⟩
    · obtain ⟨l1, l2, rfl⟩ := List.append_of_mem hnl
      obtain ⟨hA, hB⟩ := (seg_append H s s n l1 l2).mp hv.1
      refine ⟨l2.length + 1,
        by simp only [List.length_append, List.length_cons]; omega,
        nextIter_seg l2 H n s hB⟩

theorem seg_cons_eq (H : Heap) (a c z : Nat) (l : List Nat) :
    seg H a (c :: l) z =
      (((H a).m_next == some c) && (((H c).m_prev == some a) && seg H c l z)) :=
  rfl

theorem firstD_mem_cons (l : List Nat) (s : Nat) : firstD l s ∈ s :: l := by
  cases l with
  | nil => simp [firstD]
  | cons b t => simp [firstD]

theorem lastD_mem_cons (l : List Nat) (s : Nat) : lastD l s ∈ s :: l := by
  cases l with
  | nil => simp [lastD]
  | cons b t => exact List.mem_cons_of_mem _ (lastD_mem (b :: t) s (by simp))

theorem pushFront_popFront_roundtrip (H : Heap) (s x : Nat) (l : List Nat)
    (hv : ValidList H s l) (hx : x ∉ s :: l) :
    ∃ H1 H2, pushFront s x H = some H1 ∧ pop_front s H1 = some H2 ∧
      ValidList H2 s l ∧ (∀ n ∈ s :: l, H2 n = H n) := by
  have hxs : x ≠ s := by simp at hx; tauto
  have hxl : x ∉ l := by simp at hx; tauto
  set f := firstD l s with hfdef
  have hf : (H s).m_next = some f := seg_next_head H s s l hv.1
  have hfprev : (H f).m_prev = some s := seg_prev_head H s s l hv.1
  set H1 := setNext (setPrev (setNext (setPrev H f (some x)) x (some f)) x
    (some s)) s (some x) with h1def
  have he1 : pushFront s x H = some H1 := pushFront_eq s x f H hf
  have hg1 : (H1 s).m_next = some x := by rw [h1def]; simp
  have hg2 : (H1 x).m_next = some f := by rw [h1def]; simp [hxs]
  set H2 := setPrev (setNext H1 s (some f)) f (some s) with h2def
  have he2 : pop_front s H1 = some H2 := popFront_eq s x f H1 hg1 hg2
  have hpt : ∀ n ∈ s :: l, H2 n = H n := by
    intro n hn
    have hnx : n ≠ x := by
      intro h
      exact hx (h ▸ hn)
    apply Node.ext
    · -- m_prev
      by_cases hnf : n = f
      · rw [hnf, h2def]
        simp [hfprev]
      · rw [h2def]
        simp only [setPrev_m_prev_ne _ _ _ _ hnf, setNext_m_prev, h1def,
          setPrev_m_prev_ne _ _ _ _ hnx, setPrev_m_prev_ne _ _ _ _ hnf]
    · -- m_next
      by_cases hns : n = s
      · rw [hns, h2def]
        simp [hf]
      · rw [h2def]
        simp only [setPrev_m_next, setNext_m_next_ne _ _ _ _ hns, h1def,
          setPrev_m_next, setNext_m_next_ne _ _ _ _ hnx]
  refine ⟨H1, H2, he1, he2, ⟨?_, hv.2⟩, hpt⟩
  refine seg_move l H H2 s s s s hv.1 (List.nodup_cons.mp hv.2).2 ?_ ?_ ?_ ?_
    ?_ ?_
  · rw [hpt s (by simp)]
    exact seg_next_head H s s l hv.1
  · rw [hpt (firstD l s) (firstD_mem_cons l s)]
    exact seg_prev_head H s s l hv.1
  · rw [hpt (lastD l s) (lastD_mem_cons l s)]
    exact seg_last_next H s s l hv.1
  · rw [hpt s (by simp)]
    exact seg_last_prev H s s l hv.1
  · intro n hn _
    rw [hpt n (List.mem_cons_of_mem s hn)]
  · intro n hn _
    rw [hpt n (List.mem_cons_of_mem s hn)]

theorem map_transp_invol (a b : Nat) (l : List Nat) :
    (l.map (transp a b)).map (transp a b) = l := by
  induction l with
  | nil => rfl
  | cons x xs ih =>
      rw [List.map_cons, List.map_cons, transp_invol, ih]

/-! ### The concrete scenario of the spec -/

/-- Heap after `push_back(A); push_back(B); push_back(C)` on an empty list
(sentinel 0, A = 1, B = 2, C = 3). -/
def scenarioH3 : Option Heap :=
  runOps 0 10 [Op.pushBack 1, Op.pushBack 2, Op.pushBack 3] emptyList0

/-- ... then `swap(A, C)`. -/
def scenarioH4 : Option Heap := scenarioH3.bind (fun h => swap 1 3 h)

/-- ... then `erase(B)`. -/
def scenarioH5 : Option Heap :=
  scenarioH4.bind (fun h => (erase 0 2 h 10).map (fun r => r.2))

/-- ... then `pop_front()`. -/
def scenarioH6 : Option Heap := scenarioH5.bind (fun h => pop_front 0 h)


/-- A two-node list: sentinel 0, ring 0 → 1 → 2 → 0. -/
def heap012 : Heap := fun i =>
  if i = 0 then ⟨some 2, some 1⟩
  else if i = 1 then ⟨some 0, some 2⟩
  else if i = 2 then ⟨some 1, some 0⟩ else ⟨none, none⟩

/-! ### The claims -/

/-- Claim C1: for every sequence of push_front/push_back/pop_front/
pop_back/erase/swap calls whose stated preconditions hold, the list
remains a valid circular ring including the sentinel: every ring node `n`
satisfies `n.next.prev == n` and `n.prev.next == n`, and following `next`
from any ring node returns to it after exactly `size() + 1` steps (and
not earlier), passing through the sentinel. -/
theorem ring_invariant_preserved (s : Nat) (H : Heap) (l : List Nat)
    (ops : List Op) (fuel : Nat) (hv : ValidList H s l)
    (hpre : PreSeq s l ops) (hfuel : l.length + ops.length + 2 ≤ fuel) :
    ∃ H2, runOps s fuel ops H = some H2 ∧
      ValidList H2 s (opsEff s ops l) ∧
      size s H2 fuel = some (opsEff s ops l).length ∧
      ∀ n ∈ s :: opsEff s ops l,
        (∃ m, (H2 n).m_next = some m ∧ (H2 m).m_prev = some n) ∧
        (∃ m, (H2 n).m_prev = some m ∧ (H2 m).m_next = some n) ∧
        nextIter H2 ((opsEff s ops l).length + 1) (some n) = some n ∧
        (∀ k, 1 ≤ k → k ≤ (opsEff s ops l).length →
          nextIter H2 k (some n) ≠ some n) ∧
        (∃ k, k ≤ (opsEff s ops l).length ∧
          nextIter H2 k (some n) = some s) := by
  obtain ⟨H2, he, hv2⟩ := runOps_ok ops H s l fuel hv hpre hfuel
  have hlen := opsEff_length_le ops s l
  exact ⟨H2, he, hv2, size_valid H2 s _ fuel hv2 (by omega),
    ring_properties H2 s _ hv2⟩

/-- Witness for C1: a push_back on the empty list with sentinel 0. -/
theorem ring_invariant_preserved_witness :
    ∃ H2, runOps 0 3 [Op.pushBack 1] emptyList0 = some H2 ∧
      ValidList H2 0 (opsEff 0 [Op.pushBack 1] []) ∧
      size 0 H2 3 = some (opsEff 0 [Op.pushBack 1] []).length ∧
      ∀ n ∈ 0 :: opsEff 0 [Op.pushBack 1] [],
        (∃ m, (H2 n).m_next = some m ∧ (H2 m).m_prev = some n) ∧
        (∃ m, (H2 n).m_prev = some m ∧ (H2 m).m_next = some n) ∧
        nextIter H2 ((opsEff 0 [Op.pushBack 1] []).length + 1) (some n)
          = some n ∧
        (∀ k, 1 ≤ k → k ≤ (opsEff 0 [Op.pushBack 1] []).length →
          nextIter H2 k (some n) ≠ some n) ∧
        (∃ k, k ≤ (opsEff 0 [Op.pushBack 1] []).length ∧
          nextIter H2 k (some n) = some 0) :=
  ring_invariant_preserved 0 emptyList0 [] [Op.pushBack 1] 3
    ⟨by decide, by decide⟩
    (PreSeq.cons [] (Op.pushBack 1) []
      (show (1 : Nat) ∉ 0 :: ([] : List Nat) by decide) (PreSeq.nil _))
    (by decide)

/-- Claim C2 (evidence of the code bug): move-constructing from the
one-node list `heap01` (sentinel 0, node 1) into a new sentinel at 2
copies the source sentinel's pointers and resets the source, but never
re-points node 1 at the new sentinel: node 1 still links to address 0
while the new sentinel links to node 1, so no node sequence makes the new
list a valid ring. -/
theorem move_constructor_corrupts_ring :
    ValidList heap01 0 [1] ∧
    (movedHeap 2).m_prev = some 1 ∧ (movedHeap 2).m_next = some 1 ∧
    (movedHeap 1).m_prev = some 0 ∧ (movedHeap 1).m_next = some 0 ∧
    (movedHeap 0).m_prev = some 0 ∧ (movedHeap 0).m_next = some 0 ∧
    (∀ l : List Nat, seg movedHeap 2 l 2 = false) := by
  refine ⟨⟨by decide, by decide⟩, by decide, by decide, by decide, by decide,
    by decide, by decide, ?_⟩
  intro l
  cases l with
  | nil => decide
  | cons c t =>
      rw [seg_cons_eq]
      by_cases hc : c = 1
      · subst hc
        rw [show (movedHeap 1).m_prev = some 0 from by decide]
        simp
      · rw [show (movedHeap 2).m_next = some 1 from by decide]
        simp [beq_iff_eq]
        intro h
        exact absurd h.symm hc

/-- Claim C3: `erase(x)` returns true and removes `x` from the ring iff
`x` was a member before the call; in that case it rewires `x`'s former
neighbors to bypass `x` and resets `x`'s own prev/next to the sentinel;
otherwise it returns false and leaves the heap unchanged. -/
theorem erase_correct (H : Heap) (s x : Nat) (l : List Nat) (fuel : Nat)
    (hv : ValidList H s l) (hfuel : l.length + 2 ≤ fuel) :
    ((∃ H2, erase s x H fuel = some (true, H2)) ↔ x ∈ l) ∧
    (x ∉ l → erase s x H fuel = some (false, H)) ∧
    (x ∈ l → ∃ H2 l1 l2, l = l1 ++ x :: l2 ∧
      erase s x H fuel = some (true, H2) ∧
      ValidList H2 s (l1 ++ l2) ∧ x ∉ l1 ++ l2 ∧
      (H2 x).m_prev = some s ∧ (H2 x).m_next = some s ∧
      (∃ p q, (H x).m_prev = some p ∧ (H x).m_next = some q ∧
        (H2 p).m_next = some q ∧ (H2 q).m_prev = some p)) := by
  have hnf : x ∉ l → erase s x H fuel = some (false, H) := fun hx =>
    erase_notfound H s x l fuel hv hx (by omega)
  have hfd : x ∈ l → ∃ H2 l1 l2, l = l1 ++ x :: l2 ∧
      erase s x H fuel = some (true, H2) ∧
      ValidList H2 s (l1 ++ l2) ∧ x ∉ l1 ++ l2 ∧
      (H2 x).m_prev = some s ∧ (H2 x).m_next = some s ∧
      (∃ p q, (H x).m_prev = some p ∧ (H x).m_next = some q ∧
        (H2 p).m_next = some q ∧ (H2 q).m_prev = some p) := by
    intro hx
    obtain ⟨l1, l2, rfl⟩ := List.append_of_mem hx
    obtain ⟨_, _, _, hx1, hx2, _, _, _⟩ := nodup_mid_facts s x l1 l2 hv.2
    obtain ⟨H2, he, hv2, e1, e2, hp, hq, e3, e4, _⟩ :=
      erase_found H s x l1 l2 fuel hv (by simp at hfuel ⊢; omega)
    refine ⟨H2, l1, l2, rfl, he, hv2, by simp; tauto, e1, e2,
      lastD l1 s, firstD l2 s, hp, hq, e3, e4⟩
  refine ⟨⟨?_, ?_⟩, hnf, hfd⟩
  · rintro ⟨H2, he⟩
    by_contra hx
    rw [hnf hx] at he
    simp at he
  · intro hx
    obtain ⟨H2, l1, l2, _, he, _⟩ := hfd hx
    exact ⟨H2, he⟩

/-- Witness for C3: erasing node 1 from the one-node list `heap01`. -/
theorem erase_correct_witness :
    (((∃ H2, erase 0 1 heap01 3 = some (true, H2)) ↔ (1 : Nat) ∈ [1]) ∧
    ((1 : Nat) ∉ [1] → erase 0 1 heap01 3 = some (false, heap01)) ∧
    ((1 : Nat) ∈ [1] → ∃ H2 l1 l2, [1] = l1 ++ 1 :: l2 ∧
      erase 0 1 heap01 3 = some (true, H2) ∧
      ValidList H2 0 (l1 ++ l2) ∧ (1 : Nat) ∉ l1 ++ l2 ∧
      (H2 1).m_prev = some 0 ∧ (H2 1).m_next = some 0 ∧
      (∃ p q, (heap01 1).m_prev = some p ∧ (heap01 1).m_next = some q ∧
        (H2 p).m_next = some q ∧ (H2 q).m_prev = some p))) :=
  erase_correct heap01 0 1 [1] 3 ⟨by decide, by decide⟩ (by decide)

/-- Claim C4: the scenario of the spec.  Starting from the empty list
(sentinel 0): push_back(1), push_back(2), push_back(3) gives iteration
order [1,2,3] with size 3; swap(1,3) gives [3,2,1]; erase(2) returns
true and gives [3,1] with size 2; pop_front() gives [1] with size 1. -/
theorem scenario_push_swap_erase_pop :
    scenarioH3.bind (fun h => collect h 0 10) = some [1, 2, 3] ∧
    scenarioH3.bind (fun h => size 0 h 10) = some 3 ∧
    scenarioH4.bind (fun h => collect h 0 10) = some [3, 2, 1] ∧
    scenarioH4.bind (fun h => (erase 0 2 h 10).map (fun r => r.1))
      = some true ∧
    scenarioH5.bind (fun h => collect h 0 10) = some [3, 1] ∧
    scenarioH5.bind (fun h => size 0 h 10) = some 2 ∧
    scenarioH6.bind (fun h => collect h 0 10) = some [1] ∧
    scenarioH6.bind (fun h => size 0 h 10) = some 1 := by
  refine ⟨by decide, by decide, by decide, by decide, by decide, by decide,
    by decide, by decide⟩

/-- Claim C5: `swap(a,b)` twice restores the original node ordering, for
any valid list and any two distinct linked nodes. -/
theorem swap_twice_restores_order (H : Heap) (s a b : Nat) (l : List Nat)
    (hv : ValidList H s l) (ha : a ∈ l) (hb : b ∈ l) (hab : a ≠ b) :
    ∃ H1 H2, swap a b H = some H1 ∧ swap a b H1 = some H2 ∧
      ValidList H2 s l := by
  obtain ⟨H1, he1, hv1⟩ := swap_ok H s a b l hv ha hb
  have ha2 : a ∈ l.map (transp a b) :=
    List.mem_map.mpr ⟨b, hb, transp_right a b⟩
  have hb2 : b ∈ l.map (transp a b) :=
    List.mem_map.mpr ⟨a, ha, transp_left a b⟩
  obtain ⟨H2, he2, hv2⟩ := swap_ok H1 s a b (l.map (transp a b)) hv1 ha2 hb2
  rw [map_transp_invol] at hv2
  exact ⟨H1, H2, he1, he2, hv2⟩

/-- Witness for C5: adjacent nodes 1, 2 in the two-node list `heap012`. -/
theorem swap_twice_restores_order_witness :
    ∃ H1 H2, swap 1 2 heap012 = some H1 ∧ swap 1 2 H1 = some H2 ∧
      ValidList H2 0 [1, 2] :=
  swap_twice_restores_order heap012 0 1 2 [1, 2] ⟨by decide, by decide⟩
    (by decide) (by decide) (by decide)

/-- Claim C6: `push_front(x)` then `pop_front()` leaves the list
topologically identical to its prior state: same member nodes in the
same order, and every ring node (the sentinel included) holds exactly
its old prev/next pointers — for all prior contents, the empty list
included. -/
theorem push_front_pop_front_identity (H : Heap) (s x : Nat)
    (l : List Nat) (hv : ValidList H s l) (hx : x ∉ s :: l) :
    ∃ H1 H2, pushFront s x H = some H1 ∧ pop_front s H1 = some H2 ∧
      ValidList H2 s l ∧ (∀ n ∈ s :: l, H2 n = H n) :=
  pushFront_popFront_roundtrip H s x l hv hx

/-- Witness for C6: pushing node 5 onto the empty list and popping it. -/
theorem push_front_pop_front_identity_witness :
    ∃ H1 H2, pushFront 0 5 emptyList0 = some H1 ∧
      pop_front 0 H1 = some H2 ∧ ValidList H2 0 [] ∧
      (∀ n ∈ [0], H2 n = emptyList0 n) :=
  push_front_pop_front_identity emptyList0 0 5 [] ⟨by decide, by decide⟩
    (by decide)

/-- Claim C7: `empty()` returns true iff `size()` returns 0, on every
valid list. -/
theorem empty_iff_size_zero (H : Heap) (s : Nat) (l : List Nat)
    (fuel : Nat) (hv : ValidList H s l) (hfuel : l.length + 1 ≤ fuel) :
    (empty s H = true ↔ size s H fuel = some 0) := by
  constructor
  · intro he
    cases l with
    | nil => exact size_valid H s [] fuel hv hfuel
    | cons f t =>
        rw [not_empty_of_valid_cons H s f t hv] at he
        exact absurd he (by simp)
  · intro hs
    rw [size_valid H s l fuel hv hfuel] at hs
    have : l.length = 0 := by simpa using hs
    cases l with
    | nil => exact empty_of_valid_nil H s hv
    | cons f t => simp at this

/-- Witness for C7: the empty list with sentinel 0. -/
theorem empty_iff_size_zero_witness :
    (empty 0 emptyList0 = true ↔ size 0 emptyList0 1 = some 0) :=
  empty_iff_size_zero emptyList0 0 [] 1 ⟨by decide, by decide⟩ (by decide)

/-- Counterexample to C8 as stated: calling `pop_front` (or `pop_back`)
on the concrete empty list leaves the sentinel self-linked in both
directions — the list IS still a valid empty ring, so no pointer
corruption occurs. -/
theorem pop_on_empty_no_corruption_example :
    ((pop_front 0 emptyList0).map (fun h => (h 0).m_next)
      = some (some 0)) ∧
    ((pop_front 0 emptyList0).map (fun h => (h 0).m_prev)
      = some (some 0)) ∧
    ((pop_front 0 emptyList0).map (fun h => seg h 0 [] 0) = some true) ∧
    ((pop_back 0 emptyList0).map (fun h => (h 0).m_next)
      = some (some 0)) ∧
    ((pop_back 0 emptyList0).map (fun h => (h 0).m_prev)
      = some (some 0)) ∧
    ((pop_back 0 emptyList0).map (fun h => seg h 0 [] 0) = some true) := by
  refine ⟨by decide, by decide, by decide, by decide, by decide, by decide⟩

/-- C8 amended: on an empty list (sentinel self-linked both ways),
`pop_front` and `pop_back` leave the sentinel self-linked: the list
remains a valid empty ring, with no pointer corruption. -/
theorem pop_on_empty_keeps_valid_ring (H : Heap) (s : Nat)
    (h1 : (H s).m_next = some s) (h2 : (H s).m_prev = some s) :
    ∃ H2 H3, pop_front s H = some H2 ∧ seg H2 s [] s = true ∧
      pop_back s H = some H3 ∧ seg H3 s [] s = true := by
  refine ⟨_, _, popFront_eq s s s H h1 h1, ?_,
    popBack_eq s s s H h2 h2, ?_⟩
  · rw [seg_nil_iff]
    constructor <;> simp
  · rw [seg_nil_iff]
    constructor <;> simp

/-- Witness for the amended C8. -/
theorem pop_on_empty_keeps_valid_ring_witness :
    ∃ H2 H3, pop_front 0 emptyList0 = some H2 ∧ seg H2 0 [] 0 = true ∧
      pop_back 0 emptyList0 = some H3 ∧ seg H3 0 [] 0 = true :=
  pop_on_empty_keeps_valid_ring emptyList0 0 (by decide) (by decide)

/-- Counterexample to C9 as stated: erasing node 1 from the one-node
list `heap01` succeeds and resets the removed node's pointers, but they
are reset to the sentinel's address 0 — which is neither the node itself
(address 1, "self-referential") nor null. -/
theorem erase_reset_not_self_or_null :
    ((erase 0 1 heap01 3).map (fun r => r.1) = some true) ∧
    ((erase 0 1 heap01 3).map (fun r => (r.2 1).m_prev)
      = some (some 0)) ∧
    ((erase 0 1 heap01 3).map (fun r => (r.2 1).m_next)
      = some (some 0)) ∧
    (((some 0 : Option Nat) == some 1) = false) ∧
    (((some 0 : Option Nat) == (none : Option Nat)) = false) := by
  refine ⟨by decide, by decide, by decide, by decide, by decide⟩

/-- C9 amended: when `erase` removes a node, the removed node's prev and
next pointers are reset to point at the list's sentinel (the unlinked
marker used by this implementation). -/
theorem erase_resets_node_to_sentinel (H : Heap) (s x : Nat)
    (l1 l2 : List Nat) (fuel : Nat) (hv : ValidList H s (l1 ++ x :: l2))
    (hfuel : l1.length + 2 ≤ fuel) :
    ∃ H2, erase s x H fuel = some (true, H2) ∧
      (H2 x).m_prev = some s ∧ (H2 x).m_next = some s := by
  obtain ⟨H2, he, _, e1, e2, _⟩ := erase_found H s x l1 l2 fuel hv hfuel
  exact ⟨H2, he, e1, e2⟩

/-- Witness for the amended C9. -/
theorem erase_resets_node_to_sentinel_witness :
    ∃ H2, erase 0 1 heap01 3 = some (true, H2) ∧
      (H2 1).m_prev = some 0 ∧ (H2 1).m_next = some 0 :=
  erase_resets_node_to_sentinel heap01 0 1 [] [] 3 ⟨by decide, by decide⟩
    (by decide)

/-- Claim C10: `pop_front` and `pop_back` on an empty list (sentinel
self-linked in both directions) leave the heap completely unchanged. -/
theorem pop_on_empty_unchanged (H : Heap) (s : Nat)
    (h1 : (H s).m_next = some s) (h2 : (H s).m_prev = some s) :
    pop_front s H = some H ∧ pop_back s H = some H := by
  constructor
  · rw [popFront_eq s s s H h1 h1]
    congr 1
    funext i
    by_cases hi : i = s
    · subst hi
      apply Node.ext
      · rw [show ((setPrev (setNext H i (some i)) i (some i)) i).m_prev
          = some i from by simp, h2]
      · rw [show ((setPrev (setNext H i (some i)) i (some i)) i).m_next
          = some i from by simp, h1]
    · rw [setPrev_app_ne _ _ _ _ hi, setNext_app_ne _ _ _ _ hi]
  · rw [popBack_eq s s s H h2 h2]
    congr 1
    funext i
    by_cases hi : i = s
    · subst hi
      apply Node.ext
      · rw [show ((setNext (setPrev H i (some i)) i (some i)) i).m_prev
          = some i from by simp, h2]
      · rw [show ((setNext (setPrev H i (some i)) i (some i)) i).m_next
          = some i from by simp, h1]
    · rw [setNext_app_ne _ _ _ _ hi, setPrev_app_ne _ _ _ _ hi]

/-- Witness for C10. -/
theorem pop_on_empty_unchanged_witness :
    pop_front 0 emptyList0 = some emptyList0 ∧
    pop_back 0 emptyList0 = some emptyList0 :=
  pop_on_empty_unchanged emptyList0 0 (by decide) (by decide)
